import Mathlib

/-!
Verification of the sapSim server services against their specification.

The definitions below are a shallow embedding of the TypeScript services in
`src/server/src/services/`.  Strings are modelled as Lean `String` / `List Char`,
JavaScript numbers appearing in score arithmetic as `ℚ` or `ℤ` (the arithmetic
in question is exact decimal arithmetic), database tables as lists of rows, and
fallible code as `Option` / `Except`.
-/

/-! ## Character utilities (ASCII semantics of JS `\w`, `\b`, `toLowerCase`, `toUpperCase`, `\s`) -/

/-- A JS regex word character: `[A-Za-z0-9_]` (the `\w` / `\b` classes are ASCII). -/
def isWordChar (c : Char) : Bool :=
  (97 ≤ c.toNat && c.toNat ≤ 122) || (65 ≤ c.toNat && c.toNat ≤ 90) ||
    (48 ≤ c.toNat && c.toNat ≤ 57) || (c.toNat == 95)

/-- ASCII lower-casing of a character, as `String.toLowerCase` acts on ASCII. -/
def lcChar (c : Char) : Char :=
  if 65 ≤ c.toNat && c.toNat ≤ 90 then Char.ofNat (c.toNat + 32) else c

/-- ASCII upper-casing of a character, as `String.toUpperCase` acts on ASCII. -/
def ucChar (c : Char) : Char :=
  if 97 ≤ c.toNat && c.toNat ≤ 122 then Char.ofNat (c.toNat - 32) else c

/-- JS whitespace (`\s`), restricted to the ASCII whitespace characters that occur
in the modelled data. -/
def isJsSpace (c : Char) : Bool :=
  c == ' ' || c == '\t' || c == '\n' || c == '\r' || c == '\x0b' || c == '\x0c'

theorem toNat_ofNat_valid (n : Nat) (h : Nat.isValidChar n) : (Char.ofNat n).toNat = n := by
  unfold Char.ofNat
  rw [dif_pos h]
  rfl

theorem lcChar_toNat (c : Char) :
    (lcChar c).toNat = if 65 ≤ c.toNat ∧ c.toNat ≤ 90 then c.toNat + 32 else c.toNat := by
  unfold lcChar
  by_cases h : 65 ≤ c.toNat ∧ c.toNat ≤ 90
  · have hvalid : Nat.isValidChar (c.toNat + 32) := by
      left
      omega
    have hb : (65 ≤ c.toNat && c.toNat ≤ 90) = true := by
      simp [h.1, h.2]
    rw [if_pos hb, if_pos h, toNat_ofNat_valid _ hvalid]
  · have hb : (65 ≤ c.toNat && c.toNat ≤ 90) = false := by
      simp only [Bool.and_eq_false_iff, decide_eq_false_iff_not]
      omega
    rw [if_neg (by simp [hb]), if_neg h]

theorem isWordChar_lcChar (c : Char) : isWordChar (lcChar c) = isWordChar c := by
  unfold isWordChar
  rw [lcChar_toNat]
  by_cases h : 65 ≤ c.toNat ∧ c.toNat ≤ 90
  · rw [if_pos h]
    have h1 : ∀ a b : Bool, a = true → b = true → a = b := by decide
    apply h1 <;> simp <;> omega
  · rw [if_neg h]

/-! ## ValidatorAgent (src/server/src/services/aiPipelineOrchestrator.ts)

Data model of the validation results produced by the `ValidatorAgent` class. -/

structure SQLJoin where
  leftTable : String
  leftColumn : String
  rightTable : String
  rightColumn : String
  joinType : String
deriving DecidableEq, Repr

structure QueryAnalysis where
  tables : List String
  joins : List SQLJoin
  columns : List String
  whereConditions : List String
  hasAggregation : Bool
  hasSubqueries : Bool
deriving DecidableEq, Repr

structure JoinValidation where
  validJoins : List String
  invalidJoins : List String
  missingJoins : List String
deriving DecidableEq, Repr

structure TableValidation where
  validTables : List String
  invalidTables : List String
  unusedTables : List String
deriving DecidableEq, Repr

structure BusinessLogicValidation where
  isBusinessLogicValid : Bool
  businessRuleViolations : List String
deriving DecidableEq, Repr

structure SAPValidation where
  warnings : List String
  suggestions : List String
deriving DecidableEq, Repr

structure ValidationResult where
  isValid : Bool
  confidence : ℚ
  errors : List String
  warnings : List String
  suggestions : List String
  joinValidation : JoinValidation
  tableValidation : TableValidation
  businessLogicValidation : BusinessLogicValidation
deriving DecidableEq, Repr

namespace ValidatorAgent

/-- Embedding of `ValidatorAgent.compileValidationResult`.  JS number arithmetic on
the confidence score is modelled over `ℚ`. -/
def compileValidationResult (_queryAnalysis : QueryAnalysis) (joinValidation : JoinValidation)
    (tableValidation : TableValidation) (businessLogicValidation : BusinessLogicValidation)
    (sapValidation : SAPValidation) : ValidationResult :=
  let errors0 : List String := []
  let warnings0 : List String := sapValidation.warnings
  let suggestions : List String := sapValidation.suggestions
  let errors1 :=
    if joinValidation.invalidJoins.length > 0 then
      errors0 ++ ["Invalid joins detected: " ++ String.intercalate ", " joinValidation.invalidJoins]
    else errors0
  let errors2 :=
    if tableValidation.invalidTables.length > 0 then
      errors1 ++ ["Invalid tables detected: " ++ String.intercalate ", " tableValidation.invalidTables]
    else errors1
  let warnings1 :=
    if !businessLogicValidation.isBusinessLogicValid then
      warnings0 ++ businessLogicValidation.businessRuleViolations
    else warnings0
  let warnings2 :=
    if joinValidation.missingJoins.length > 0 then
      warnings1 ++ ["Potentially missing joins: " ++ String.intercalate ", " joinValidation.missingJoins]
    else warnings1
  let confidence0 : ℚ := 1 - errors2.length * (3 / 10) - warnings2.length * (1 / 10)
  let confidence : ℚ := max 0 (min 1 confidence0)
  { isValid := errors2.length == 0
    confidence := confidence
    errors := errors2
    warnings := warnings2
    suggestions := suggestions
    joinValidation := joinValidation
    tableValidation := tableValidation
    businessLogicValidation := businessLogicValidation }

/-- The catch-branch fallback result of `ValidatorAgent.validateQuery`. -/
def validateQueryCatch (e : String) : ValidationResult :=
  { isValid := false
    confidence := 0
    errors := ["Validation failed: " ++ e]
    warnings := []
    suggestions := ["Please check SQL syntax and try again"]
    joinValidation := { validJoins := [], invalidJoins := [], missingJoins := [] }
    tableValidation := { validTables := [], invalidTables := [], unusedTables := [] }
    businessLogicValidation :=
      { isBusinessLogicValid := false, businessRuleViolations := ["Validation process failed"] } }

/-- Embedding of the try/catch structure of `ValidatorAgent.validateQuery`: the body
(steps 1-6) is a computation that either produces a `ValidationResult` or raises an
exception carrying a message; the catch branch substitutes the hard-coded fallback.
The embedded method itself is a total function, so it never propagates an exception,
and it touches no stored state (it is pure). -/
def validateQueryWith (pipeline : Except String ValidationResult) : ValidationResult :=
  match pipeline with
  | Except.ok r => r
  | Except.error e => validateQueryCatch e

end ValidatorAgent

/-! ## String scanning primitives used by QueryValidation -/

/-- Case-sensitive test that `p` occurs at the front of the second list. -/
def beginsWith : List Char → List Char → Bool
  | [], _ => true
  | _ :: _, [] => false
  | p :: ps, c :: cs => p == c && beginsWith ps cs

/-- JS `String.includes`: does `sub` occur anywhere in `s`? -/
def containsSubstring (s sub : List Char) : Bool :=
  match s with
  | [] => sub.isEmpty
  | _ :: cs => beginsWith sub s || containsSubstring cs sub

/-- Number of matches of the literal pattern `pat` found by a global JS regex scan over
`s` (non-overlapping, left to right), as in `sql.match(/JOIN/g).length`. -/
def countMatches (s pat : List Char) : Nat :=
  match s with
  | [] => 0
  | c :: cs =>
    if h : pat.length ≠ 0 ∧ beginsWith pat (c :: cs) = true then
      1 + countMatches ((c :: cs).drop pat.length) pat
    else countMatches cs pat
termination_by s.length
decreasing_by
  all_goals simp_wf
  all_goals omega

/-! ## QueryValidation (src/server/src/services/queryValidation.ts) -/

structure QueryContextColumn where
  table : String
  column : String
  type : String
  nullable : Bool
  primaryKey : Bool
  foreignKey : Bool
deriving DecidableEq, Repr

structure QueryContextRelationship where
  leftTable : String
  leftColumn : String
  rightTable : String
  rightColumn : String
  joinType : String
deriving DecidableEq, Repr

structure QueryContext where
  tables : List String
  columns : List QueryContextColumn
  relationships : List QueryContextRelationship
deriving DecidableEq, Repr

namespace QueryValidation

structure ValidationError where
  type : String
  message : String
  severity : String
deriving DecidableEq, Repr

structure ValidationWarning where
  type : String
  message : String
  suggestion : String
deriving DecidableEq, Repr

/-- Embedding of `QueryValidation.calculatePerformanceScore`; the JS number arithmetic
involved is integral, modelled over `ℤ`. -/
def calculatePerformanceScore (sql : String) (_context : QueryContext)
    (errors : List ValidationError) (warnings : List ValidationWarning) : ℤ :=
  let score0 : ℤ := 100
  let performanceErrors := errors.filter (fun e => e.type == "performance")
  let performanceWarnings := warnings.filter (fun w => w.type == "performance")
  let score1 := score0 - performanceErrors.length * 20 - performanceWarnings.length * 10
  let score2 :=
    if !containsSubstring (sql.data.map ucChar) "LIMIT".data then score1 - 15 else score1
  let score3 := if containsSubstring sql.data "SELECT *".data then score2 - 10 else score2
  let joinCount : ℤ := countMatches (sql.data.map ucChar) "JOIN".data
  let score4 := if joinCount > 3 then score3 - (joinCount - 3) * 5 else score3
  max 0 score4

/-- Embedding of `QueryValidation.calculateSecurityScore`. -/
def calculateSecurityScore (sql : String) (errors : List ValidationError) : ℤ :=
  let score0 : ℤ := 100
  let securityErrors := errors.filter (fun e => e.type == "security")
  let score1 := score0 - securityErrors.length * 25
  let score2 :=
    if containsSubstring sql.data "--".data || containsSubstring sql.data "/*".data then
      score1 - 10
    else score1
  max 0 score2

end QueryValidation

/-- C1: for every list of error strings and warning strings produced while compiling a
validation result, the confidence computed by `ValidatorAgent.compileValidationResult`
equals `1 - 0.3 * errors - 0.1 * warnings` clamped into `[0, 1]`, and in particular the
returned confidence always lies in `[0, 1]`. -/
theorem ValidatorAgent.compileValidationResult_confidence
    (qa : QueryAnalysis) (jv : JoinValidation) (tv : TableValidation)
    (blv : BusinessLogicValidation) (sv : SAPValidation) :
    (ValidatorAgent.compileValidationResult qa jv tv blv sv).confidence =
      max 0 (min 1 (1 - ((ValidatorAgent.compileValidationResult qa jv tv blv sv).errors.length : ℚ) * (3 / 10)
        - ((ValidatorAgent.compileValidationResult qa jv tv blv sv).warnings.length : ℚ) * (1 / 10))) ∧
    0 ≤ (ValidatorAgent.compileValidationResult qa jv tv blv sv).confidence ∧
    (ValidatorAgent.compileValidationResult qa jv tv blv sv).confidence ≤ 1 := by
  refine ⟨rfl, le_max_left _ _, ?_⟩
  exact max_le (by norm_num) (min_le_left _ _)

/-- C9: the performance and security scores computed by `QueryValidation` always lie
in the integer range `[0, 100]`, for every SQL string, query context and lists of
errors and warnings. -/
theorem QueryValidation.scores_in_range (sql : String) (context : QueryContext)
    (errors : List QueryValidation.ValidationError)
    (warnings : List QueryValidation.ValidationWarning) :
    0 ≤ QueryValidation.calculatePerformanceScore sql context errors warnings ∧
    QueryValidation.calculatePerformanceScore sql context errors warnings ≤ 100 ∧
    0 ≤ QueryValidation.calculateSecurityScore sql errors ∧
    QueryValidation.calculateSecurityScore sql errors ≤ 100 := by
  simp only [QueryValidation.calculatePerformanceScore, QueryValidation.calculateSecurityScore]
  refine ⟨le_max_left _ _, ?_, le_max_left _ _, ?_⟩
  · apply max_le (by norm_num)
    split_ifs <;> omega
  · apply max_le (by norm_num)
    split_ifs <;> omega

/-! ## SAPQueryGenerator (src/server/src/services/sapQueryGenerator.ts)

The identifier-quoting pass of `generateSAPSQL` runs, for each context table, the
JS replacements

  sql.replace(new RegExp(`(?<!")\\b${name}\\b(?!")`, "g"), `"${name}"`)
  sql.replace(new RegExp(`(?<!")\\b${name.toLowerCase()}\\b(?!")`, "gi"), `"${name}"`)

and an analogous case-insensitive replacement for each column name.  A match of
such a pattern (for identifier names made of word characters) is an occurrence of
the name, compared character-wise (case-insensitively for the `i` flag), whose
neighbouring characters on both sides are neither word characters (`\b`) nor a
double quote (the lookbehind/lookahead).  `replaceQuoting` is a character-level
scanner with exactly this semantics: `prev` is the character preceding the scan
position in the original string (`none` at the start of the string), matches are
non-overlapping and found left to right on the original string, and each match is
replaced by the replacement text. -/

/-- Character comparison used by pattern matching: exact, or up to ASCII case when
the regex has the `i` flag. -/
def charMatch (ci : Bool) (p c : Char) : Bool :=
  if ci then lcChar p == lcChar c else p == c

/-- Does the pattern `name` match at the front of `s` (character-wise, with `ci`
controlling case-insensitivity)? -/
def matchFront (ci : Bool) : List Char → List Char → Bool
  | [], _ => true
  | _ :: _, [] => false
  | p :: ps, c :: cs => charMatch ci p c && matchFront ci ps cs

/-- The lookbehind condition of `(?<!")\b` at a match start: no previous character,
or a previous character that is neither a word character nor a quote. -/
def okBefore : Option Char → Bool
  | none => true
  | some c => !(isWordChar c) && !(c == '"')

/-- The lookahead condition of `\b(?!")` after a match: end of string, or a next
character that is neither a word character nor a quote. -/
def okAfter : List Char → Bool
  | [] => true
  | c :: _ => !(isWordChar c) && !(c == '"')

/-- Full match condition of the quoting regex at the current scan position. -/
def matchHere (ci : Bool) (name : List Char) (prev : Option Char) (s : List Char) : Bool :=
  matchFront ci name s && okBefore prev && okAfter (s.drop name.length)

/-- One global JS `String.replace` of the quoting regex built from `name`, replacing
every match by `repl`.  Matches are located on the original string from left to
right, non-overlapping; the scan resumes after the matched segment, with `prev` the
last character of the matched segment in the original string. -/
def replaceQuoting (ci : Bool) (name repl : List Char) (prev : Option Char)
    (s : List Char) : List Char :=
  match s with
  | [] => []
  | c :: cs =>
    if h : name.length ≠ 0 ∧ matchHere ci name prev (c :: cs) = true then
      repl ++ replaceQuoting ci name repl (some (((c :: cs).take name.length).getLastD c))
        ((c :: cs).drop name.length)
    else
      c :: replaceQuoting ci name repl (some c) cs
termination_by s.length
decreasing_by
  all_goals simp_wf
  all_goals omega

/-- Is there any position in `s` (scanned with initial previous character `prev`)
where the quoting regex would match? -/
def hasMatch (ci : Bool) (name : List Char) (prev : Option Char) (s : List Char) : Bool :=
  match s with
  | [] => false
  | c :: cs => matchHere ci name prev (c :: cs) || hasMatch ci name (some c) cs

/-! ### Basic properties of the quoting scanner -/

theorem charMatch_word {ci : Bool} {p c : Char} (hp : isWordChar p = true)
    (h : charMatch ci p c = true) : isWordChar c = true := by
  cases ci with
  | false =>
    simp only [charMatch, Bool.false_eq_true, if_false, beq_iff_eq] at h
    rwa [← h]
  | true =>
    simp only [charMatch, if_true, beq_iff_eq] at h
    have hlc := isWordChar_lcChar c
    rw [← hlc, ← h, isWordChar_lcChar]
    exact hp

theorem matchFront_wordlike {ci : Bool} {name : List Char}
    (hname : ∀ a ∈ name, isWordChar a = true) :
    ∀ {s : List Char}, matchFront ci name s = true →
      name.length ≤ s.length ∧ ∀ a ∈ s.take name.length, isWordChar a = true := by
  induction name with
  | nil =>
    intro s _
    exact ⟨Nat.zero_le _, by simp⟩
  | cons p ps ih =>
    intro s h
    cases s with
    | nil => simp [matchFront] at h
    | cons c cs =>
      simp only [matchFront, Bool.and_eq_true] at h
      have hp : isWordChar p = true := hname p (List.mem_cons_self p ps)
      have hc : isWordChar c = true := charMatch_word hp h.1
      have hps : ∀ a ∈ ps, isWordChar a = true := fun a ha => hname a (List.mem_cons_of_mem p ha)
      obtain ⟨hlen, hall⟩ := ih hps h.2
      refine ⟨by simpa using Nat.succ_le_succ hlen, ?_⟩
      intro a ha
      simp only [List.length_cons, List.take_succ_cons, List.mem_cons] at ha
      rcases ha with rfl | ha
      · exact hc
      · exact hall a ha

theorem matchFront_congr {ci : Bool} {name : List Char} :
    ∀ {s t : List Char}, s.take name.length = t.take name.length →
      matchFront ci name s = matchFront ci name t := by
  induction name with
  | nil => intro s t _; rfl
  | cons p ps ih =>
    intro s t h
    cases s with
    | nil =>
      cases t with
      | nil => rfl
      | cons d ds => simp [List.take_succ_cons] at h
    | cons c cs =>
      cases t with
      | nil => simp [List.take_succ_cons] at h
      | cons d ds =>
        simp only [List.length_cons, List.take_succ_cons, List.cons.injEq] at h
        obtain ⟨rfl, hback⟩ := h
        simp only [matchFront]
        rw [ih hback]

theorem hasMatch_congr_prev {ci : Bool} {name : List Char} {p q : Option Char}
    (h : okBefore p = okBefore q) :
    ∀ {s : List Char}, hasMatch ci name p s = hasMatch ci name q s := by
  intro s
  cases s with
  | nil => rfl
  | cons c cs =>
    simp only [hasMatch, matchHere, h]

theorem hasMatch_tail {ci : Bool} {name : List Char} {prev : Option Char} {c : Char}
    {cs : List Char} (h : hasMatch ci name prev (c :: cs) = false) :
    hasMatch ci name (some c) cs = false := by
  simp only [hasMatch, Bool.or_eq_false_iff] at h
  exact h.2

theorem hasMatch_head {ci : Bool} {name : List Char} {prev : Option Char} {c : Char}
    {cs : List Char} (h : hasMatch ci name prev (c :: cs) = false) :
    matchHere ci name prev (c :: cs) = false := by
  simp only [hasMatch, Bool.or_eq_false_iff] at h
  exact h.1

theorem hasMatch_get_drop {ci : Bool} {name : List Char} :
    ∀ {s : List Char} {prev : Option Char}, hasMatch ci name prev s = false →
      ∀ k (hk : k < s.length), hasMatch ci name (some (s.get ⟨k, hk⟩)) (s.drop (k + 1)) = false := by
  intro s
  induction s with
  | nil => intro prev _ k hk; simp at hk
  | cons c cs ih =>
    intro prev h k hk
    cases k with
    | zero =>
      simpa using hasMatch_tail h
    | succ k =>
      have h' := hasMatch_tail h
      simpa using ih h' k (by simpa using Nat.lt_of_succ_lt_succ hk)

theorem okAfter_append {t x : List Char} (h : t ≠ []) : okAfter (t ++ x) = okAfter t := by
  cases t with
  | nil => exact absurd rfl h
  | cons a t' => rfl

theorem getLastD_mem {l : List Char} (h : l ≠ []) (d : Char) : l.getLastD d ∈ l := by
  rw [List.getLastD_eq_getLast?, List.getLast?_eq_getLast l h]
  exact List.getLast_mem h

/-- The output of one replacement pass is either the input unchanged, or has the shape
`u ++ repl ++ w` where `u` is an unchanged prefix of the input. -/
theorem replaceQuoting_split (ci : Bool) (name repl : List Char) (prev : Option Char)
    (s : List Char) :
    replaceQuoting ci name repl prev s = s ∨
      ∃ u w v, s = u ++ v ∧ replaceQuoting ci name repl prev s = u ++ repl ++ w := by
  induction prev, s using replaceQuoting.induct ci name repl with
  | case1 prev =>
    left
    rw [replaceQuoting]
  | case2 prev c tail h ih =>
    right
    refine ⟨[], replaceQuoting ci name repl (some ((List.take name.length (c :: tail)).getLastD c))
      (List.drop name.length (c :: tail)), c :: tail, rfl, ?_⟩
    rw [replaceQuoting, dif_pos h]
    simp
  | case3 prev c tail h ih =>
    rcases ih with hid | ⟨u, w, v, hsplit, hout⟩
    · left
      rw [replaceQuoting, dif_neg h, hid]
    · right
      refine ⟨c :: u, w, v, by rw [hsplit]; rfl, ?_⟩
      rw [replaceQuoting, dif_neg h, hout]
      rfl


theorem matchHere_eq_false_iff {ci : Bool} {name : List Char} {prev : Option Char}
    {s : List Char} :
    matchHere ci name prev s = false ↔
      matchFront ci name s = false ∨ okBefore prev = false ∨
        okAfter (s.drop name.length) = false := by
  unfold matchHere
  cases matchFront ci name s <;> cases okBefore prev <;>
    cases okAfter (s.drop name.length) <;> simp

/-- A position where the quoting regex does not match keeps not matching after the
tail of the string is rewritten by a replacement pass (whose insertions start with a
double quote). -/
theorem matchHere_preserved {ci1 : Bool} {n1 : List Char}
    (hword : ∀ a ∈ n1, isWordChar a = true) {prev : Option Char} {c : Char}
    {cs rest' : List Char}
    (hshape : rest' = cs ∨ ∃ u w v, cs = u ++ v ∧ rest' = u ++ '"' :: w)
    (hno : matchHere ci1 n1 prev (c :: cs) = false) :
    matchHere ci1 n1 prev (c :: rest') = false := by
  rcases hshape with rfl | ⟨u, w, v, hcs, hrest⟩
  · exact hno
  subst hcs
  subst hrest
  rw [matchHere_eq_false_iff] at hno
  rw [matchHere_eq_false_iff]
  rcases hno with hno | hno | hno
  · -- the original position did not even match the pattern characters
    by_cases hwin : n1.length ≤ u.length + 1
    · left
      have hlen : n1.length ≤ (c :: u).length := by simpa using hwin
      have htake : (c :: (u ++ '"' :: w)).take n1.length = (c :: (u ++ v)).take n1.length := by
        rw [show (c :: (u ++ '"' :: w)) = (c :: u) ++ '"' :: w from rfl,
          show (c :: (u ++ v)) = (c :: u) ++ v from rfl,
          List.take_append_of_le_length hlen, List.take_append_of_le_length hlen]
      rw [matchFront_congr htake]
      exact hno
    · left
      cases hmfv : matchFront ci1 n1 (c :: (u ++ '"' :: w)) with
      | false => rfl
      | true =>
        exfalso
        obtain ⟨-, hall⟩ := matchFront_wordlike hword hmfv
        have hquote : '"' ∈ (c :: (u ++ '"' :: w)).take n1.length := by
          rw [show (c :: (u ++ '"' :: w)) = (c :: u) ++ '"' :: w from rfl,
            List.take_append_eq_append_take]
          apply List.mem_append_right
          cases hd : n1.length - (c :: u).length with
          | zero =>
            exfalso
            simp only [List.length_cons] at hd
            omega
          | succ k => simp [List.take_succ_cons]
        have := hall '"' hquote
        simp [isWordChar] at this
  · exact Or.inr (Or.inl hno)
  · -- the original position matched the characters but failed the lookahead
    by_cases hwin : n1.length ≤ u.length + 1
    · right; right
      have hlen : n1.length ≤ (c :: u).length := by simpa using hwin
      have hdrop1 : (c :: (u ++ v)).drop n1.length = (c :: u).drop n1.length ++ v := by
        rw [show (c :: (u ++ v)) = (c :: u) ++ v from rfl, List.drop_append_of_le_length hlen]
      have hdrop2 : (c :: (u ++ '"' :: w)).drop n1.length =
          (c :: u).drop n1.length ++ '"' :: w := by
        rw [show (c :: (u ++ '"' :: w)) = (c :: u) ++ '"' :: w from rfl,
          List.drop_append_of_le_length hlen]
      rcases Nat.lt_or_ge n1.length (c :: u).length with hlt | hge
      · have hne2 : (c :: u).drop n1.length ≠ [] := by
          apply List.ne_nil_of_length_pos
          rw [List.length_drop]
          omega
        rw [hdrop1, okAfter_append hne2] at hno
        rw [hdrop2, okAfter_append hne2]
        exact hno
      · have hdropnil : (c :: u).drop n1.length = [] := List.drop_eq_nil_of_le hge
        rw [hdrop2, hdropnil]
        simp [okAfter]
    · -- the inserted quote lies inside the match window: the pattern match fails
      left
      cases hmfv : matchFront ci1 n1 (c :: (u ++ '"' :: w)) with
      | false => rfl
      | true =>
        exfalso
        obtain ⟨-, hall⟩ := matchFront_wordlike hword hmfv
        have hquote : '"' ∈ (c :: (u ++ '"' :: w)).take n1.length := by
          rw [show (c :: (u ++ '"' :: w)) = (c :: u) ++ '"' :: w from rfl,
            List.take_append_eq_append_take]
          apply List.mem_append_right
          cases hd : n1.length - (c :: u).length with
          | zero =>
            exfalso
            simp only [List.length_cons] at hd
            omega
          | succ k => simp [List.take_succ_cons]
        have := hall '"' hquote
        simp [isWordChar] at this

theorem okBefore_word {a : Char} (h : isWordChar a = true) : okBefore (some a) = false := by
  simp [okBefore, h]

theorem take_cons_ne_nil {c : Char} {cs : List Char} {n : Nat} (h : n ≠ 0) :
    (c :: cs).take n ≠ [] := by
  cases n with
  | zero => exact absurd rfl h
  | succ k => simp [List.take_succ_cons]

/-- Scanning a run of word characters followed by a closing quote finds no match and
reduces to scanning the remainder with the quote as previous character. -/
theorem hasMatch_word_run {ci : Bool} {n1 : List Char} :
    ∀ (L : List Char), (∀ a ∈ L, isWordChar a = true) →
      ∀ (w : Char), okBefore (some w) = false →
      ∀ (R : List Char), hasMatch ci n1 (some w) (L ++ '"' :: R) = hasMatch ci n1 (some '"') R := by
  intro L
  induction L with
  | nil =>
    intro _ w hw R
    have hmh : matchHere ci n1 (some w) ('"' :: R) = false := by
      rw [matchHere_eq_false_iff]
      exact Or.inr (Or.inl hw)
    simp [hasMatch, hmh]
  | cons a L' ih =>
    intro hword w hw R
    have hmh : matchHere ci n1 (some w) (a :: (L' ++ '"' :: R)) = false := by
      rw [matchHere_eq_false_iff]
      exact Or.inr (Or.inl hw)
    have ha : isWordChar a = true := hword a (List.mem_cons_self a L')
    have hL' : ∀ b ∈ L', isWordChar b = true := fun b hb => hword b (List.mem_cons_of_mem a hb)
    have hunfold : hasMatch ci n1 (some w) (a :: (L' ++ '"' :: R)) =
        (matchHere ci n1 (some w) (a :: (L' ++ '"' :: R)) ||
          hasMatch ci n1 (some a) (L' ++ '"' :: R)) := rfl
    rw [show (a :: L') ++ '"' :: R = a :: (L' ++ '"' :: R) from rfl, hunfold, hmh,
      Bool.false_or]
    exact ih hL' a (okBefore_word ha) R

/-- Scanning an inserted quoted identifier finds no match inside it; the scan reduces
to the remainder with the closing quote as previous character. -/
theorem hasMatch_quoted_block {ci : Bool} {n1 : List Char} (hne : n1 ≠ [])
    (hword : ∀ a ∈ n1, isWordChar a = true) (rep : List Char)
    (hrep : ∀ a ∈ rep, isWordChar a = true) (prev : Option Char) (R : List Char) :
    hasMatch ci n1 prev ('"' :: (rep ++ '"' :: R)) = hasMatch ci n1 (some '"') R := by
  have hmf : matchFront ci n1 ('"' :: (rep ++ '"' :: R)) = false := by
    cases n1 with
    | nil => exact absurd rfl hne
    | cons p ps =>
      have hp : isWordChar p = true := hword p (List.mem_cons_self p ps)
      cases hcm : charMatch ci p '"' with
      | false => simp [matchFront, hcm]
      | true =>
        have := charMatch_word hp hcm
        simp [isWordChar] at this
  have hmh : matchHere ci n1 prev ('"' :: (rep ++ '"' :: R)) = false := by
    rw [matchHere_eq_false_iff]
    exact Or.inl hmf
  simp only [hasMatch, hmh, Bool.false_or]
  exact hasMatch_word_run rep hrep '"' (by decide) R

/-- If the quoting regex has no match anywhere in `s`, the replacement pass returns
`s` unchanged. -/
theorem replaceQuoting_id_of_no_match {ci : Bool} {name repl : List Char} :
    ∀ (prev : Option Char) (s : List Char), hasMatch ci name prev s = false →
      replaceQuoting ci name repl prev s = s := by
  intro prev s
  induction prev, s using replaceQuoting.induct ci name repl with
  | case1 prev =>
    intro _
    rw [replaceQuoting]
  | case2 prev c tail hcond ih =>
    intro h
    exact absurd hcond.2 (by simp [hasMatch_head h])
  | case3 prev c tail hcond ih =>
    intro h
    rw [replaceQuoting, dif_neg hcond, ih (hasMatch_tail h)]

theorem matchHere_parts {ci : Bool} {name : List Char} {prev : Option Char} {s : List Char}
    (h : matchHere ci name prev s = true) :
    matchFront ci name s = true ∧ okBefore prev = true ∧
      okAfter (s.drop name.length) = true := by
  unfold matchHere at h
  simp only [Bool.and_eq_true] at h
  exact ⟨h.1.1, h.1.2, h.2⟩

theorem matched_getLastD_word {ci : Bool} {name : List Char} (hne : name ≠ [])
    (hword : ∀ a ∈ name, isWordChar a = true) {c : Char} {tail : List Char}
    (hmf : matchFront ci name (c :: tail) = true) :
    isWordChar (((c :: tail).take name.length).getLastD c) = true := by
  obtain ⟨-, hall⟩ := matchFront_wordlike hword hmf
  have hne2 : (c :: tail).take name.length ≠ [] :=
    take_cons_ne_nil (fun h0 => hne (List.length_eq_zero.mp h0))
  exact hall _ (getLastD_mem hne2 c)

/-- A quoting replacement pass leaves no match of its own pattern in its output. -/
theorem hasMatch_replaceQuoting_self {ci : Bool} {name : List Char} (hne : name ≠ [])
    (hword : ∀ a ∈ name, isWordChar a = true) {rep : List Char}
    (hrep : ∀ a ∈ rep, isWordChar a = true) :
    ∀ (prev : Option Char) (s : List Char),
      hasMatch ci name prev (replaceQuoting ci name ('"' :: rep ++ ['"']) prev s) = false := by
  intro prev s
  induction prev, s using replaceQuoting.induct ci name ('"' :: rep ++ ['"']) with
  | case1 prev =>
    rw [replaceQuoting]
    rfl
  | case2 prev c tail hcond ih =>
    rw [replaceQuoting, dif_pos hcond]
    obtain ⟨hmf, -, -⟩ := matchHere_parts hcond.2
    have hrearr : ('"' :: rep ++ ['"']) ++
        replaceQuoting ci name ('"' :: rep ++ ['"'])
          (some (((c :: tail).take name.length).getLastD c)) ((c :: tail).drop name.length) =
        '"' :: (rep ++ '"' ::
          replaceQuoting ci name ('"' :: rep ++ ['"'])
            (some (((c :: tail).take name.length).getLastD c)) ((c :: tail).drop name.length)) := by
      simp
    rw [hrearr, hasMatch_quoted_block hne hword rep hrep]
    have hlastword : isWordChar (((c :: tail).take name.length).getLastD c) = true :=
      matched_getLastD_word hne hword hmf
    rw [hasMatch_congr_prev (p := some '"') (q := some (((c :: tail).take name.length).getLastD c))
      (by rw [okBefore_word hlastword]; decide)]
    exact ih
  | case3 prev c tail hcond ih =>
    rw [replaceQuoting, dif_neg hcond]
    have hnomatch : matchHere ci name prev (c :: tail) = false := by
      cases hmv : matchHere ci name prev (c :: tail) with
      | false => rfl
      | true => exact absurd ⟨fun h0 => hne (List.length_eq_zero.mp h0), hmv⟩ hcond
    have hshape := replaceQuoting_split ci name ('"' :: rep ++ ['"']) (some c) tail
    have hmh : matchHere ci name prev
        (c :: replaceQuoting ci name ('"' :: rep ++ ['"']) (some c) tail) = false := by
      apply matchHere_preserved hword _ hnomatch
      rcases hshape with hid | ⟨u, w, v, hsplit, hout⟩
      · exact Or.inl hid
      · right
        refine ⟨u, rep ++ '"' :: w, v, hsplit, ?_⟩
        rw [hout]
        simp
    have hunfold : hasMatch ci name prev
        (c :: replaceQuoting ci name ('"' :: rep ++ ['"']) (some c) tail) =
        (matchHere ci name prev
          (c :: replaceQuoting ci name ('"' :: rep ++ ['"']) (some c) tail) ||
          hasMatch ci name (some c)
            (replaceQuoting ci name ('"' :: rep ++ ['"']) (some c) tail)) := rfl
    rw [hunfold, hmh, Bool.false_or]
    exact ih

/-- A quoting replacement pass for one pattern creates no new match of any other
word-like pattern: if `s` had no match of `n1`, the output still has none. -/
theorem hasMatch_replaceQuoting_other {ci1 : Bool} {n1 : List Char} (hne1 : n1 ≠ [])
    (hw1 : ∀ a ∈ n1, isWordChar a = true) {ci2 : Bool} {n2 : List Char} (hne2 : n2 ≠ [])
    (hw2 : ∀ a ∈ n2, isWordChar a = true) {rep2 : List Char}
    (hrep2 : ∀ a ∈ rep2, isWordChar a = true) :
    ∀ (prev : Option Char) (s : List Char), hasMatch ci1 n1 prev s = false →
      hasMatch ci1 n1 prev (replaceQuoting ci2 n2 ('"' :: rep2 ++ ['"']) prev s) = false := by
  intro prev s
  induction prev, s using replaceQuoting.induct ci2 n2 ('"' :: rep2 ++ ['"']) with
  | case1 prev =>
    intro _
    rw [replaceQuoting]
    rfl
  | case2 prev c tail hcond ih =>
    intro h
    rw [replaceQuoting, dif_pos hcond]
    obtain ⟨hmf2, -, -⟩ := matchHere_parts hcond.2
    have hrearr : ('"' :: rep2 ++ ['"']) ++
        replaceQuoting ci2 n2 ('"' :: rep2 ++ ['"'])
          (some (((c :: tail).take n2.length).getLastD c)) ((c :: tail).drop n2.length) =
        '"' :: (rep2 ++ '"' ::
          replaceQuoting ci2 n2 ('"' :: rep2 ++ ['"'])
            (some (((c :: tail).take n2.length).getLastD c)) ((c :: tail).drop n2.length)) := by
      simp
    rw [hrearr, hasMatch_quoted_block hne1 hw1 rep2 hrep2]
    have hlast2word : isWordChar (((c :: tail).take n2.length).getLastD c) = true :=
      matched_getLastD_word hne2 hw2 hmf2
    have hlenle : n2.length ≤ (c :: tail).length := (matchFront_wordlike hw2 hmf2).1
    have hpos : 1 ≤ n2.length := by
      cases n2 with
      | nil => exact absurd rfl hne2
      | cons a l => simp
    have hk : n2.length - 1 < (c :: tail).length := by omega
    have hdropmatch := hasMatch_get_drop h (n2.length - 1) hk
    have hsucc : n2.length - 1 + 1 = n2.length := by omega
    rw [hsucc] at hdropmatch
    have hkt : n2.length - 1 < ((c :: tail).take n2.length).length := by
      rw [List.length_take]
      omega
    have hgcword : isWordChar ((c :: tail).get ⟨n2.length - 1, hk⟩) = true := by
      have hmem : (c :: tail)[n2.length - 1] ∈ (c :: tail).take n2.length := by
        rw [← List.getElem_take (c :: tail) (h := hkt)]
        exact List.getElem_mem hkt
      have hall := (matchFront_wordlike hw2 hmf2).2
      rw [List.get_eq_getElem]
      exact hall _ hmem
    rw [hasMatch_congr_prev
      (p := some ((c :: tail).get ⟨n2.length - 1, hk⟩))
      (q := some (((c :: tail).take n2.length).getLastD c))
      (by rw [okBefore_word hgcword, okBefore_word hlast2word])] at hdropmatch
    have hR := ih hdropmatch
    rw [hasMatch_congr_prev (p := some '"')
      (q := some (((c :: tail).take n2.length).getLastD c))
      (by rw [okBefore_word hlast2word]; decide)]
    exact hR
  | case3 prev c tail hcond ih =>
    intro h
    rw [replaceQuoting, dif_neg hcond]
    have hmh : matchHere ci1 n1 prev
        (c :: replaceQuoting ci2 n2 ('"' :: rep2 ++ ['"']) (some c) tail) = false := by
      apply matchHere_preserved hw1 _ (hasMatch_head h)
      rcases replaceQuoting_split ci2 n2 ('"' :: rep2 ++ ['"']) (some c) tail with
        hid | ⟨u, w, v, hsplit, hout⟩
      · exact Or.inl hid
      · right
        refine ⟨u, rep2 ++ '"' :: w, v, hsplit, ?_⟩
        rw [hout]
        simp
    have hunfold : hasMatch ci1 n1 prev
        (c :: replaceQuoting ci2 n2 ('"' :: rep2 ++ ['"']) (some c) tail) =
        (matchHere ci1 n1 prev
          (c :: replaceQuoting ci2 n2 ('"' :: rep2 ++ ['"']) (some c) tail) ||
          hasMatch ci1 n1 (some c)
            (replaceQuoting ci2 n2 ('"' :: rep2 ++ ['"']) (some c) tail)) := rfl
    rw [hunfold, hmh, Bool.false_or]
    exact ih (hasMatch_tail h)

/-- One identifier-quoting substitution: a pattern (with its case-sensitivity flag)
and the identifier text inserted between the quotes. -/
structure QuotePass where
  ci : Bool
  pat : List Char
  rep : List Char
deriving DecidableEq, Repr

/-- A pass is well-formed when its pattern is a nonempty word and its replacement
identifier consists of word characters (true of every SAP table or column name). -/
def GoodQuotePass (p : QuotePass) : Prop :=
  p.pat ≠ [] ∧ (∀ a ∈ p.pat, isWordChar a = true) ∧ ∀ a ∈ p.rep, isWordChar a = true

instance (p : QuotePass) : Decidable (GoodQuotePass p) := by
  unfold GoodQuotePass
  infer_instance

def applyQuotePass (s : List Char) (p : QuotePass) : List Char :=
  replaceQuoting p.ci p.pat ('"' :: p.rep ++ ['"']) none s

def applyQuotePasses (ps : List QuotePass) (s : List Char) : List Char :=
  ps.foldl applyQuotePass s

theorem hasMatch_applyQuotePasses_of_none {ci : Bool} {n : List Char} (hne : n ≠ [])
    (hw : ∀ a ∈ n, isWordChar a = true) :
    ∀ (ps : List QuotePass), (∀ p ∈ ps, GoodQuotePass p) → ∀ (s : List Char),
      hasMatch ci n none s = false →
      hasMatch ci n none (applyQuotePasses ps s) = false := by
  intro ps
  induction ps with
  | nil => intro _ s h; exact h
  | cons q rest ih =>
    intro hgood s h
    obtain ⟨hqne, hqw, hqrep⟩ := hgood q (List.mem_cons_self q rest)
    have hstep : hasMatch ci n none (applyQuotePass s q) = false :=
      hasMatch_replaceQuoting_other hne hw hqne hqw hqrep none s h
    exact ih (fun p hp => hgood p (List.mem_cons_of_mem q hp)) (applyQuotePass s q) hstep

theorem hasMatch_applyQuotePasses_self :
    ∀ (ps : List QuotePass), (∀ p ∈ ps, GoodQuotePass p) → ∀ p ∈ ps, ∀ (s : List Char),
      hasMatch p.ci p.pat none (applyQuotePasses ps s) = false := by
  intro ps
  induction ps with
  | nil => intro _ p hp; exact absurd hp (List.not_mem_nil p)
  | cons q rest ih =>
    intro hgood p hp s
    obtain ⟨hqne, hqw, hqrep⟩ := hgood q (List.mem_cons_self q rest)
    rcases List.mem_cons.mp hp with rfl | hp'
    · have hself : hasMatch p.ci p.pat none (applyQuotePass s p) = false :=
        hasMatch_replaceQuoting_self hqne hqw hqrep none s
      exact hasMatch_applyQuotePasses_of_none hqne hqw rest
        (fun r hr => hgood r (List.mem_cons_of_mem p hr)) _ hself
    · exact ih (fun r hr => hgood r (List.mem_cons_of_mem q hr)) p hp' (applyQuotePass s q)

theorem applyQuotePasses_id_of_no_match :
    ∀ (ps : List QuotePass) (t : List Char),
      (∀ p ∈ ps, hasMatch p.ci p.pat none t = false) → applyQuotePasses ps t = t := by
  intro ps
  induction ps with
  | nil => intro t _; rfl
  | cons q rest ih =>
    intro t h
    have hq : applyQuotePass t q = t :=
      replaceQuoting_id_of_no_match none t (h q (List.mem_cons_self q rest))
    show applyQuotePasses rest (applyQuotePass t q) = t
    rw [hq]
    exact ih t (fun p hp => h p (List.mem_cons_of_mem q hp))

/-- Running a list of well-formed quoting passes twice gives the same result as
running it once. -/
theorem applyQuotePasses_idempotent (ps : List QuotePass)
    (hgood : ∀ p ∈ ps, GoodQuotePass p) (s : List Char) :
    applyQuotePasses ps (applyQuotePasses ps s) = applyQuotePasses ps s :=
  applyQuotePasses_id_of_no_match ps (applyQuotePasses ps s)
    (fun p hp => hasMatch_applyQuotePasses_self ps hgood p hp s)

/-! ## SAPQueryGenerator context types and identifier quoting -/

/-- A column of an `SAPTableContext` (fields of the TS interface not used by the
embedded operations - type, semantic type, sample values, key flags - are omitted). -/
structure SAPColumnContext where
  name : String
  description : String
deriving DecidableEq, Repr

/-- An `SAPTableContext` (module, description and business purpose omitted: the
embedded operations only use the table name and its columns). -/
structure SAPTableContext where
  name : String
  columns : List SAPColumnContext
deriving DecidableEq, Repr

structure SAPRelationship where
  leftTable : String
  leftColumn : String
  rightTable : String
  rightColumn : String
  relationshipType : String
  joinType : String
  confidence : ℚ
  businessRule : String
deriving DecidableEq, Repr

structure SAPQueryGenContext where
  tables : List SAPTableContext
  relationships : List SAPRelationship
deriving DecidableEq, Repr

namespace SAPQueryGenerator

/-- The per-table body of the quoting loop in `generateSAPSQL`: the case-sensitive
table-name replacement, the case-insensitive one, then one case-insensitive
replacement per column name. -/
def quoteTableAndColumns (sql0 : List Char) (table : SAPTableContext) : List Char :=
  let sql1 := replaceQuoting false table.name.data ('"' :: table.name.data ++ ['"']) none sql0
  let sql2 := replaceQuoting true (table.name.data.map lcChar)
    ('"' :: table.name.data ++ ['"']) none sql1
  table.columns.foldl
    (fun acc column => replaceQuoting true (column.name.data.map lcChar)
      ('"' :: column.name.data ++ ['"']) none acc) sql2

/-- The identifier-quoting substitution of `generateSAPSQL`: the `context.tables.forEach`
loop over `quoteTableAndColumns`. -/
def quoteIdentifiers (tables : List SAPTableContext) (sql : String) : String :=
  String.mk (tables.foldl quoteTableAndColumns sql.data)

/-- The same loop, flattened into a list of `QuotePass`es. -/
def tableQuotePasses (t : SAPTableContext) : List QuotePass :=
  ⟨false, t.name.data, t.name.data⟩ :: ⟨true, t.name.data.map lcChar, t.name.data⟩ ::
    t.columns.map (fun c => ⟨true, c.name.data.map lcChar, c.name.data⟩)

def contextQuotePasses (tables : List SAPTableContext) : List QuotePass :=
  tables.flatMap tableQuotePasses

theorem quoteTableAndColumns_eq_passes (t : SAPTableContext) (l : List Char) :
    quoteTableAndColumns l t = applyQuotePasses (tableQuotePasses t) l := by
  unfold quoteTableAndColumns tableQuotePasses applyQuotePasses
  simp only [List.foldl_cons, List.foldl_map]
  rfl

theorem foldl_quote_eq_passes (tables : List SAPTableContext) :
    ∀ (l : List Char), tables.foldl quoteTableAndColumns l =
      applyQuotePasses (contextQuotePasses tables) l := by
  induction tables with
  | nil => intro l; rfl
  | cons t ts ih =>
    intro l
    show ts.foldl quoteTableAndColumns (quoteTableAndColumns l t) = _
    rw [ih, quoteTableAndColumns_eq_passes]
    unfold contextQuotePasses applyQuotePasses
    rw [List.flatMap_cons, List.foldl_append]

/-- A well-formed SAP identifier: nonempty, made of word characters. -/
def GoodSAPName (s : String) : Prop :=
  s.data ≠ [] ∧ ∀ a ∈ s.data, isWordChar a = true

instance (s : String) : Decidable (GoodSAPName s) := by
  unfold GoodSAPName
  infer_instance

theorem contextQuotePasses_good {tables : List SAPTableContext}
    (h : ∀ t ∈ tables, GoodSAPName t.name ∧ ∀ c ∈ t.columns, GoodSAPName c.name) :
    ∀ p ∈ contextQuotePasses tables, GoodQuotePass p := by
  intro p hp
  unfold contextQuotePasses at hp
  rw [List.mem_flatMap] at hp
  obtain ⟨t, ht, hpt⟩ := hp
  obtain ⟨⟨htne, htw⟩, hcols⟩ := h t ht
  have hmaplc : ∀ (nm : List Char), nm ≠ [] → (∀ a ∈ nm, isWordChar a = true) →
      (nm.map lcChar ≠ [] ∧ ∀ a ∈ nm.map lcChar, isWordChar a = true) := by
    intro nm hne hw
    constructor
    · simpa using hne
    · intro a ha
      rw [List.mem_map] at ha
      obtain ⟨b, hb, rfl⟩ := ha
      rw [isWordChar_lcChar]
      exact hw b hb
  unfold tableQuotePasses at hpt
  rcases List.mem_cons.mp hpt with rfl | hpt'
  · exact ⟨htne, htw, htw⟩
  rcases List.mem_cons.mp hpt' with rfl | hpt''
  · obtain ⟨h1, h2⟩ := hmaplc t.name.data htne htw
    exact ⟨h1, h2, htw⟩
  · rw [List.mem_map] at hpt''
    obtain ⟨c, hc, rfl⟩ := hpt''
    obtain ⟨hcne, hcw⟩ := hcols c hc
    obtain ⟨h1, h2⟩ := hmaplc c.name.data hcne hcw
    exact ⟨h1, h2, hcw⟩

end SAPQueryGenerator

/-- C3: the identifier-quoting substitution of `generateSAPSQL` (wrapping the context's
table and column names in double quotes, guarded by a lookbehind/lookahead for an
existing quote) is idempotent: applying it twice yields the same string as applying it
once, for every input SQL string and every context of well-formed (nonempty, word-like)
identifier names. -/
theorem SAPQueryGenerator.quoteIdentifiers_idempotent (tables : List SAPTableContext)
    (sql : String)
    (h : ∀ t ∈ tables, SAPQueryGenerator.GoodSAPName t.name ∧
      ∀ c ∈ t.columns, SAPQueryGenerator.GoodSAPName c.name) :
    SAPQueryGenerator.quoteIdentifiers tables (SAPQueryGenerator.quoteIdentifiers tables sql) =
      SAPQueryGenerator.quoteIdentifiers tables sql := by
  unfold SAPQueryGenerator.quoteIdentifiers
  rw [SAPQueryGenerator.foldl_quote_eq_passes, SAPQueryGenerator.foldl_quote_eq_passes]
  exact congrArg String.mk
    (applyQuotePasses_idempotent _ (SAPQueryGenerator.contextQuotePasses_good h) _)

/-- Witness for C3 at a concrete context and SQL string. -/
theorem SAPQueryGenerator.quoteIdentifiers_idempotent_witness :
    (∀ t ∈ [SAPTableContext.mk "VBAK" [SAPColumnContext.mk "VBELN" "Sales document"]],
      SAPQueryGenerator.GoodSAPName t.name ∧
        ∀ c ∈ t.columns, SAPQueryGenerator.GoodSAPName c.name) ∧
    SAPQueryGenerator.quoteIdentifiers
        [SAPTableContext.mk "VBAK" [SAPColumnContext.mk "VBELN" "Sales document"]]
        (SAPQueryGenerator.quoteIdentifiers
          [SAPTableContext.mk "VBAK" [SAPColumnContext.mk "VBELN" "Sales document"]]
          "SELECT vbeln FROM VBAK") =
      SAPQueryGenerator.quoteIdentifiers
        [SAPTableContext.mk "VBAK" [SAPColumnContext.mk "VBELN" "Sales document"]]
        "SELECT vbeln FROM VBAK" :=
  ⟨by decide, SAPQueryGenerator.quoteIdentifiers_idempotent _ _ (by decide)⟩

theorem length_dropWhile_le_self (p : Char → Bool) (cs : List Char) :
    (cs.dropWhile p).length ≤ cs.length := by
  induction cs with
  | nil => simp
  | cons c cs ih =>
    rw [List.dropWhile_cons]
    split
    · simp
      omega
    · simp

/-- JS `str.replace(/\s+/g, "_")`: every maximal run of whitespace becomes one `_`. -/
def collapseSpaceRuns : List Char → List Char
  | [] => []
  | c :: cs =>
    if isJsSpace c then '_' :: collapseSpaceRuns (cs.dropWhile isJsSpace)
    else c :: collapseSpaceRuns cs
termination_by l => l.length
decreasing_by
  all_goals simp_wf
  all_goals have := length_dropWhile_le_self isJsSpace cs
  all_goals omega

/-- The result record of `generateSAPSQL` / `generateFallbackSAPQuery`. -/
structure SAPGenResult where
  sql : String
  confidence : ℚ
  explanation : String
  businessLogic : String
deriving DecidableEq, Repr

/-- A successfully JSON-parsed LLM reply, as consumed by `generateSAPSQL` after its
parsing cascade: each field is present (`some`) or missing / of the wrong type
(`none`).  A present `sql` field is string-valued. -/
structure ParsedLLMResult where
  sql : Option String
  confidence : Option ℚ
  explanation : Option String
  businessLogic : Option String
deriving DecidableEq, Repr

namespace SAPQueryGenerator

def fallbackColumnLines (tables : List SAPTableContext) : List String :=
  tables.flatMap fun table => (table.columns.take 3).map fun col =>
    "    \"" ++ table.name ++ "\"." ++ col.name ++ " AS " ++
      String.mk (collapseSpaceRuns col.description.data)

def fallbackJoinClauses (relationships : List SAPRelationship) : String :=
  relationships.foldl (fun acc rel =>
    acc ++ rel.joinType ++ " JOIN \"" ++ rel.rightTable ++ "\" ON \"" ++ rel.leftTable ++
      "\"." ++ rel.leftColumn ++ " = \"" ++ rel.rightTable ++ "\"." ++ rel.rightColumn ++ "\n")
    ""

/-- Embedding of `generateFallbackSAPQuery`.  The only partial operation in the source
is the element access `context.tables[0]`, modelled by `head?`; the result is `none`
exactly when that access would be out of bounds. -/
def generateFallbackSAPQuery (_prompt : String) (context : SAPQueryGenContext) :
    Option SAPGenResult :=
  if context.tables.length = 0 then
    some { sql := "SELECT \x27No relevant tables found\x27 AS message;"
           confidence := 1 / 10
           explanation := "No relevant SAP tables could be identified for this query."
           businessLogic := "Unable to determine business context." }
  else
    match context.tables.head? with
    | none => none
    | some mainTable =>
      some { sql := "SELECT\n" ++ String.intercalate ",\n" (fallbackColumnLines context.tables)
               ++ "\n" ++ "FROM \"" ++ mainTable.name ++ "\"\n"
               ++ fallbackJoinClauses context.relationships
             confidence := 6 / 10
             explanation := "Generated fallback query with basic table joins."
             businessLogic := "Basic multi-table query to retrieve related SAP data." }

/-- Embedding of the tail of `generateSAPSQL` after JSON parsing succeeds: the guard
`if (!result.sql || typeof result.sql !== "string") throw` (the thrown error is caught
and routed to the fallback generator - note that an empty `sql` string is falsy in JS
and takes this path too), the defaulting of the other fields (where `result.confidence
|| 0.5` maps a present value of `0` to `0.5`, and likewise for empty strings), and the
identifier-quoting substitution applied to the returned SQL. -/
def generateSAPSQLFromParsed (prompt : String) (context : SAPQueryGenContext)
    (parsed : ParsedLLMResult) : Option SAPGenResult :=
  match parsed.sql with
  | none => generateFallbackSAPQuery prompt context
  | some s =>
    if s = "" then generateFallbackSAPQuery prompt context
    else
      let confidence0 : ℚ := match parsed.confidence with
        | some c => c
        | none => 1 / 2
      let explanation0 : String := match parsed.explanation with
        | some e => e
        | none => "SQL query generated"
      let businessLogic0 : String := match parsed.businessLogic with
        | some b => b
        | none => "Business logic explanation"
      some { sql := quoteIdentifiers context.tables s
             confidence := if confidence0 = 0 then 1 / 2 else confidence0
             explanation := if explanation0 = "" then "SQL query generated" else explanation0
             businessLogic :=
               if businessLogic0 = "" then "Business logic explanation" else businessLogic0 }

end SAPQueryGenerator

/-- C2: the fallback SAP query generator terminates without throwing on every prompt
and context (its embedding always returns `some`), and with zero context tables the
returned SQL is exactly the literal `SELECT 'No relevant tables found' AS message;`. -/
theorem SAPQueryGenerator.generateFallbackSAPQuery_total (prompt : String)
    (context : SAPQueryGenContext) :
    (SAPQueryGenerator.generateFallbackSAPQuery prompt context).isSome = true ∧
    (context.tables = [] →
      (SAPQueryGenerator.generateFallbackSAPQuery prompt context).map SAPGenResult.sql =
        some "SELECT \x27No relevant tables found\x27 AS message;") := by
  constructor
  · rcases hc : context.tables with _ | ⟨t, ts⟩ <;>
      simp [SAPQueryGenerator.generateFallbackSAPQuery, hc]
  · intro he
    simp [SAPQueryGenerator.generateFallbackSAPQuery, he]

/-- Witness for C2 at a concrete empty context. -/
theorem SAPQueryGenerator.generateFallbackSAPQuery_total_witness :
    (SAPQueryGenContext.mk [] []).tables = [] ∧
    (SAPQueryGenerator.generateFallbackSAPQuery "show sales orders"
        (SAPQueryGenContext.mk [] [])).map SAPGenResult.sql =
      some "SELECT \x27No relevant tables found\x27 AS message;" :=
  ⟨rfl, (SAPQueryGenerator.generateFallbackSAPQuery_total "show sales orders"
    (SAPQueryGenContext.mk [] [])).2 rfl⟩

/-- C4 counterexample: a successfully parsed reply whose `sql` field is the (string-
valued) empty string is routed to the fallback generator - because `!result.sql` is
true for the empty string in JS - so the returned SQL is the fallback literal, not the
parsed field transformed by the quoting substitution. -/
theorem SAPQueryGenerator.generateSAPSQL_empty_sql_field_counterexample :
    (SAPQueryGenerator.generateSAPSQLFromParsed "p" (SAPQueryGenContext.mk [] [])
        (ParsedLLMResult.mk (some "") none none none)).map SAPGenResult.sql ≠
      some (SAPQueryGenerator.quoteIdentifiers [] "") := by
  decide

/-- C4 (amended): for every successfully parsed LLM reply whose `sql` field is a
nonempty string, the SQL returned by `generateSAPSQL` is exactly that field's value
transformed only by the identifier-quoting substitution. -/
theorem SAPQueryGenerator.generateSAPSQL_returns_quoted_sql (prompt : String)
    (context : SAPQueryGenContext) (parsed : ParsedLLMResult) (s : String)
    (hs : parsed.sql = some s) (hne : s ≠ "") :
    (SAPQueryGenerator.generateSAPSQLFromParsed prompt context parsed).map SAPGenResult.sql =
      some (SAPQueryGenerator.quoteIdentifiers context.tables s) := by
  obtain ⟨psql, pconf, pexp, pbl⟩ := parsed
  simp only at hs
  subst hs
  simp only [SAPQueryGenerator.generateSAPSQLFromParsed]
  rw [if_neg hne]
  rfl

/-- Witness for the amended C4 at a concrete parsed reply. -/
theorem SAPQueryGenerator.generateSAPSQL_returns_quoted_sql_witness :
    (ParsedLLMResult.mk (some "SELECT 1") none none none).sql = some "SELECT 1" ∧
    ("SELECT 1" : String) ≠ "" ∧
    (SAPQueryGenerator.generateSAPSQLFromParsed "p" (SAPQueryGenContext.mk [] [])
        (ParsedLLMResult.mk (some "SELECT 1") none none none)).map SAPGenResult.sql =
      some (SAPQueryGenerator.quoteIdentifiers [] "SELECT 1") :=
  ⟨rfl, by decide,
    SAPQueryGenerator.generateSAPSQL_returns_quoted_sql "p" (SAPQueryGenContext.mk [] [])
      (ParsedLLMResult.mk (some "SELECT 1") none none none) "SELECT 1" rfl (by decide)⟩

/-! ## RelationshipInference persistence (src/server/src/services/relationshipInference.ts) -/

/-- A row of the `TableRelationship` table. -/
structure TableRelationshipRow where
  leftTable : String
  leftColumn : String
  rightTable : String
  rightColumn : String
  relationshipType : String
  joinType : String
  confidence : ℚ
  businessRule : String
deriving DecidableEq, Repr

/-- An `InferredRelationship` as produced by the inference methods. -/
structure InferredRelationship where
  leftTable : String
  leftColumn : String
  rightTable : String
  rightColumn : String
  relationshipType : String
  joinType : String
  confidence : ℚ
  inferenceMethod : String
  businessRules : Option String
  evidence : List String
deriving DecidableEq, Repr

namespace RelationshipInference

/-- The `deleteMany` filter of `saveInferredRelationships`:
`relationshipType in ['inferred', 'semantic_match']`. -/
def isInferredType (r : TableRelationshipRow) : Bool :=
  r.relationshipType == "inferred" || r.relationshipType == "semantic_match"

/-- The `create` data of `saveInferredRelationships`: every inserted row gets
`relationshipType: 'inferred'`, and `businessRule` falls back (via JS `||`) to
`inferenceMethod: evidence.join(', ')` when `businessRules` is missing or empty. -/
def toStoredRow (rel : InferredRelationship) : TableRelationshipRow :=
  { leftTable := rel.leftTable
    leftColumn := rel.leftColumn
    rightTable := rel.rightTable
    rightColumn := rel.rightColumn
    relationshipType := "inferred"
    joinType := rel.joinType
    confidence := rel.confidence
    businessRule :=
      match rel.businessRules with
      | some b => if b = "" then rel.inferenceMethod ++ ": " ++
          String.intercalate ", " rel.evidence else b
      | none => rel.inferenceMethod ++ ": " ++ String.intercalate ", " rel.evidence }

/-- Embedding of `saveInferredRelationships`: delete the rows whose
`relationshipType` is `'inferred'` or `'semantic_match'`, then insert the new rows. -/
def saveInferredRelationships (store : List TableRelationshipRow)
    (relationships : List InferredRelationship) : List TableRelationshipRow :=
  store.filter (fun r => !isInferredType r) ++ relationships.map toStoredRow

end RelationshipInference

/-- C6 counterexample: a prior row whose `relationshipType` is not `'inferred'` or
`'semantic_match'` (here `'manual'`) survives `saveInferredRelationships`, so the
stored relationships after a run are not exactly the newly inferred set. -/
theorem RelationshipInference.saveInferredRelationships_counterexample :
    RelationshipInference.saveInferredRelationships
        [TableRelationshipRow.mk "VBAK" "KUNNR" "KNA1" "KUNNR" "manual" "left" 1 "curated"]
        [] ≠ ([] : List TableRelationshipRow) ∧
    TableRelationshipRow.mk "VBAK" "KUNNR" "KNA1" "KUNNR" "manual" "left" 1 "curated" ∈
      RelationshipInference.saveInferredRelationships
        [TableRelationshipRow.mk "VBAK" "KUNNR" "KNA1" "KUNNR" "manual" "left" 1 "curated"]
        [] := by
  constructor
  · decide
  · decide

/-- C6 (amended): each inference run rebuilds the inferred part of the
`TableRelationship` store wholesale: after `saveInferredRelationships`, the rows of
type `'inferred'`/`'semantic_match'` are exactly the newly inferred set (stored with
type `'inferred'`), while rows of any other `relationshipType` are left unchanged. -/
theorem RelationshipInference.saveInferredRelationships_rebuilds
    (store : List TableRelationshipRow) (relationships : List InferredRelationship) :
    (RelationshipInference.saveInferredRelationships store relationships).filter
        RelationshipInference.isInferredType =
      relationships.map RelationshipInference.toStoredRow ∧
    (RelationshipInference.saveInferredRelationships store relationships).filter
        (fun r => !RelationshipInference.isInferredType r) =
      store.filter (fun r => !RelationshipInference.isInferredType r) := by
  unfold RelationshipInference.saveInferredRelationships
  have hmapinf : ∀ r ∈ relationships.map RelationshipInference.toStoredRow,
      RelationshipInference.isInferredType r = true := by
    intro r hr
    rw [List.mem_map] at hr
    obtain ⟨rel, -, rfl⟩ := hr
    rfl
  constructor
  · rw [List.filter_append, List.filter_filter]
    have h1 : (store.filter
        (fun r => RelationshipInference.isInferredType r && !RelationshipInference.isInferredType r)) = [] := by
      apply List.filter_eq_nil_iff.mpr
      intro r _
      cases RelationshipInference.isInferredType r <;> simp
    rw [h1, List.nil_append]
    exact List.filter_eq_self.mpr hmapinf
  · rw [List.filter_append, List.filter_filter]
    have h2 : ((relationships.map RelationshipInference.toStoredRow).filter
        (fun r => !RelationshipInference.isInferredType r)) = [] := by
      apply List.filter_eq_nil_iff.mpr
      intro r hr
      rw [hmapinf r hr]
      simp
    rw [h2, List.append_nil]
    congr 1
    funext r
    cases RelationshipInference.isInferredType r <;> simp

/-! ## GroundTruthBuilder persistence (src/server/src/services/groundTruthBuilder.ts) -/

structure GroundTruthTable where
  key : List String
  fields : List String
  deltaBy : Option String
deriving DecidableEq, Repr

structure GroundTruthJoin where
  left : String
  right : String
  type : String
  confidence : ℚ
deriving DecidableEq, Repr

structure GroundTruthMetadata where
  generatedAt : Nat
  totalTables : Nat
  totalJoins : Nat
  confidence : ℚ
deriving DecidableEq, Repr

/-- A `GroundTruthGraph`; the `tables` record is modelled as an association list. -/
structure GroundTruthGraph where
  version : String
  tables : List (String × GroundTruthTable)
  joins : List GroundTruthJoin
  metadata : GroundTruthMetadata
deriving DecidableEq, Repr

/-- A row of the `GroundTruth` table; `createdAt` is a timestamp. -/
structure GroundTruthRow where
  id : Nat
  version : String
  graph : GroundTruthGraph
  createdAt : Nat
deriving DecidableEq, Repr

namespace GroundTruthBuilder

/-- Embedding of `saveGroundTruth`: `prisma.groundTruth.create` inserts one new row
(whose `id` and `createdAt` the database assigns) and touches nothing else. -/
def saveGroundTruth (store : List GroundTruthRow) (row : GroundTruthRow) :
    List GroundTruthRow :=
  store ++ [row]

/-- Stable insertion used to model `orderBy: { createdAt: 'desc' }`. -/
def insertByCreatedAtDesc (r : GroundTruthRow) : List GroundTruthRow → List GroundTruthRow
  | [] => [r]
  | s :: rest =>
    if r.createdAt ≤ s.createdAt then s :: insertByCreatedAtDesc r rest else r :: s :: rest

def orderByCreatedAtDesc : List GroundTruthRow → List GroundTruthRow
  | [] => []
  | r :: rest => insertByCreatedAtDesc r (orderByCreatedAtDesc rest)

/-- Embedding of `getLatestGroundTruth`: `findFirst` with descending `createdAt`
order, returning the stored graph, or `null` when the table is empty. -/
def getLatestGroundTruth (store : List GroundTruthRow) : Option GroundTruthGraph :=
  match (orderByCreatedAtDesc store).head? with
  | none => none
  | some row => some row.graph

theorem head_orderByCreatedAtDesc_max (store : List GroundTruthRow) (hne : store ≠ []) :
    ∃ m ∈ store, (orderByCreatedAtDesc store).head? = some m ∧
      ∀ x ∈ store, x.createdAt ≤ m.createdAt := by
  induction store with
  | nil => exact absurd rfl hne
  | cons r rest ih =>
    by_cases hrest : rest = []
    · subst hrest
      refine ⟨r, List.mem_cons_self r [], ?_, ?_⟩
      · rfl
      · intro x hx
        rcases List.mem_cons.mp hx with rfl | hx'
        · exact le_refl _
        · exact absurd hx' (List.not_mem_nil x)
    · obtain ⟨m, hmmem, hmhead, hmmax⟩ := ih hrest
      obtain ⟨t, hthead⟩ : ∃ t, orderByCreatedAtDesc rest = m :: t := by
        cases horder : orderByCreatedAtDesc rest with
        | nil => rw [horder] at hmhead; exact absurd hmhead (by simp)
        | cons a t =>
          rw [horder] at hmhead
          simp only [List.head?_cons, Option.some.injEq] at hmhead
          exact ⟨t, by rw [hmhead]⟩
      show ∃ m' ∈ r :: rest, (insertByCreatedAtDesc r (orderByCreatedAtDesc rest)).head? = some m' ∧ _
      rw [hthead]
      unfold insertByCreatedAtDesc
      by_cases hle : r.createdAt ≤ m.createdAt
      · rw [if_pos hle]
        refine ⟨m, List.mem_cons_of_mem r hmmem, rfl, ?_⟩
        intro x hx
        rcases List.mem_cons.mp hx with rfl | hx'
        · exact hle
        · exact hmmax x hx'
      · rw [if_neg hle]
        refine ⟨r, List.mem_cons_self r rest, rfl, ?_⟩
        intro x hx
        rcases List.mem_cons.mp hx with rfl | hx'
        · exact le_refl _
        · exact le_trans (hmmax x hx') (le_of_not_le hle)

end GroundTruthBuilder

/-- C7: the `GroundTruth` store is append-only (saving a ground truth adds one row and
leaves every existing row in place, unmodified), and `getLatestGroundTruth` returns the
graph of a row with the greatest `createdAt` timestamp, or `null` when no row exists. -/
theorem GroundTruthBuilder.saveGroundTruth_append_only_and_latest
    (store : List GroundTruthRow) (row : GroundTruthRow) :
    (GroundTruthBuilder.saveGroundTruth store row).take store.length = store ∧
    (GroundTruthBuilder.saveGroundTruth store row).length = store.length + 1 ∧
    (store = [] → GroundTruthBuilder.getLatestGroundTruth store = none) ∧
    (store ≠ [] → ∃ r ∈ store, GroundTruthBuilder.getLatestGroundTruth store = some r.graph ∧
      ∀ x ∈ store, x.createdAt ≤ r.createdAt) := by
  refine ⟨?_, ?_, ?_, ?_⟩
  · unfold GroundTruthBuilder.saveGroundTruth
    exact List.take_left store [row]
  · unfold GroundTruthBuilder.saveGroundTruth
    simp
  · intro he
    subst he
    rfl
  · intro hne
    obtain ⟨m, hmmem, hmhead, hmmax⟩ :=
      GroundTruthBuilder.head_orderByCreatedAtDesc_max store hne
    refine ⟨m, hmmem, ?_, hmmax⟩
    unfold GroundTruthBuilder.getLatestGroundTruth
    rw [hmhead]

/-- Witness for C7 at a concrete two-row store. -/
theorem GroundTruthBuilder.saveGroundTruth_append_only_and_latest_witness :
    ([GroundTruthRow.mk 1 "v1" (GroundTruthGraph.mk "v1" [] [] (GroundTruthMetadata.mk 5 0 0 0)) 5] :
      List GroundTruthRow) ≠ [] ∧
    ∃ r ∈ ([GroundTruthRow.mk 1 "v1"
        (GroundTruthGraph.mk "v1" [] [] (GroundTruthMetadata.mk 5 0 0 0)) 5] :
        List GroundTruthRow),
      GroundTruthBuilder.getLatestGroundTruth
          [GroundTruthRow.mk 1 "v1"
            (GroundTruthGraph.mk "v1" [] [] (GroundTruthMetadata.mk 5 0 0 0)) 5] =
        some r.graph ∧
      ∀ x ∈ ([GroundTruthRow.mk 1 "v1"
          (GroundTruthGraph.mk "v1" [] [] (GroundTruthMetadata.mk 5 0 0 0)) 5] :
          List GroundTruthRow), x.createdAt ≤ r.createdAt :=
  ⟨by decide,
    (GroundTruthBuilder.saveGroundTruth_append_only_and_latest
      [GroundTruthRow.mk 1 "v1" (GroundTruthGraph.mk "v1" [] [] (GroundTruthMetadata.mk 5 0 0 0)) 5]
      (GroundTruthRow.mk 2 "v2" (GroundTruthGraph.mk "v2" [] [] (GroundTruthMetadata.mk 9 0 0 0)) 9)).2.2.2
      (by decide)⟩

/-- C8: `validateQuery` never propagates an exception: whenever its try-block raises,
the returned value is the hard-coded fallback `ValidationResult` - invalid, confidence
`0.0`, a single error message, no warnings, and empty join/table validation lists.  The
embedded method is a pure total function, so no stored state is modified. -/
theorem ValidatorAgent.validateQuery_catch_fallback (e : String) :
    ValidatorAgent.validateQueryWith (Except.error e) = ValidatorAgent.validateQueryCatch e ∧
    (ValidatorAgent.validateQueryWith (Except.error e)).isValid = false ∧
    (ValidatorAgent.validateQueryWith (Except.error e)).confidence = 0 ∧
    (ValidatorAgent.validateQueryWith (Except.error e)).errors.length = 1 ∧
    (ValidatorAgent.validateQueryWith (Except.error e)).errors =
      ["Validation failed: " ++ e] ∧
    (ValidatorAgent.validateQueryWith (Except.error e)).warnings = [] ∧
    (ValidatorAgent.validateQueryWith (Except.error e)).joinValidation =
      JoinValidation.mk [] [] [] ∧
    (ValidatorAgent.validateQueryWith (Except.error e)).tableValidation =
      TableValidation.mk [] [] [] :=
  ⟨rfl, rfl, rfl, rfl, rfl, rfl, rfl, rfl⟩

/-! ## RelationshipInference.levenshteinDistance

The source builds the classic `(len2+1) x (len1+1)` dynamic-programming matrix row by
row (`matrix[i][j]` is the distance between the first `j` characters of `str1` and the
first `i` characters of `str2`) and returns `matrix[str2.length][str1.length]`. -/

/-- Textbook Levenshtein distance, by the standard recurrence with unit costs and
base cases `d("", s) = |s|`. -/
def lev : List Char → List Char → Nat
  | [], ys => ys.length
  | x :: xs, [] => (x :: xs).length
  | x :: xs, y :: ys =>
    if x = y then lev xs ys
    else 1 + min (lev xs ys) (min (lev (x :: xs) ys) (lev xs (y :: ys)))
termination_by xs ys => xs.length + ys.length
decreasing_by
  all_goals simp_wf
  all_goals omega

/-- `Aligns xs ys n`: the string `xs` can be transformed into `ys` using exactly `n`
single-character insertions, deletions and substitutions (matched characters are
free). -/
inductive Aligns : List Char → List Char → Nat → Prop where
  | nil : Aligns [] [] 0
  | keep (a : Char) {xs ys : List Char} {n : Nat} :
      Aligns xs ys n → Aligns (a :: xs) (a :: ys) n
  | subst (a b : Char) {xs ys : List Char} {n : Nat} :
      Aligns xs ys n → Aligns (a :: xs) (b :: ys) (n + 1)
  | del (a : Char) {xs ys : List Char} {n : Nat} :
      Aligns xs ys n → Aligns (a :: xs) ys (n + 1)
  | ins (b : Char) {xs ys : List Char} {n : Nat} :
      Aligns xs ys n → Aligns xs (b :: ys) (n + 1)

/-- The inner loop of the DP: given the previous matrix row (`pPrev :: pRest` starting
at column `j-1`), the left neighbour `qPrev` in the current row, and the remaining
characters of `str1`, produce the rest of the current row.  `matrix[i][j]` is
`matrix[i-1][j-1]` when the characters agree and otherwise
`min(matrix[i-1][j-1]+1, matrix[i][j-1]+1, matrix[i-1][j]+1)`. -/
def levRowStep (c2 : Char) : List Char → List Nat → Nat → List Nat
  | [], _, _ => []
  | _ :: _, [], _ => []
  | c1 :: cs, pPrev :: pRest, qPrev =>
    let cur := if c2 = c1 then pPrev
      else min (pPrev + 1) (min (qPrev + 1) (pRest.headD 0 + 1))
    cur :: levRowStep c2 cs pRest cur

/-- The outer loop of the DP over the characters of `str2`; `i` is the index of the
row being produced minus one, and each row starts with `matrix[i][0] = i`. -/
def levLoop (s1 : List Char) : List Char → List Nat → Nat → List Nat
  | [], row, _ => row
  | c2 :: rest, row, i => levLoop s1 rest ((i + 1) :: levRowStep c2 s1 row (i + 1)) (i + 1)

/-- Embedding of `RelationshipInference.levenshteinDistance`: run the DP starting from
row `[0, 1, ..., len1]` and read `matrix[str2.length][str1.length]`. -/
def levenshteinDistance (str1 str2 : String) : Nat :=
  (levLoop str1.data str2.data (List.range (str1.data.length + 1)) 0).getLastD 0

theorem lev_nil_left (ys : List Char) : lev [] ys = ys.length := by
  rw [lev]

theorem lev_nil_right (xs : List Char) : lev xs [] = xs.length := by
  cases xs with
  | nil => rw [lev]
  | cons x xs' => rw [lev]

theorem lev_cons_cons (x y : Char) (xs ys : List Char) :
    lev (x :: xs) (y :: ys) =
      if x = y then lev xs ys
      else 1 + min (lev xs ys) (min (lev (x :: xs) ys) (lev xs (y :: ys))) := by
  rw [lev]

/-- Dropping or adding one leading character on either side changes the Levenshtein
distance by at most one (all four adjacent bounds, proved simultaneously by strong
induction on the total length). -/
theorem lev_adjacent_bounds :
    ∀ (k : Nat) (xs ys : List Char), xs.length + ys.length ≤ k →
      (∀ a, lev xs ys ≤ 1 + lev (a :: xs) ys) ∧
      (∀ b, lev xs ys ≤ 1 + lev xs (b :: ys)) ∧
      (∀ a, lev (a :: xs) ys ≤ 1 + lev xs ys) ∧
      (∀ b, lev xs (b :: ys) ≤ 1 + lev xs ys) := by
  intro k
  induction k with
  | zero =>
    intro xs ys hk
    have hxs : xs = [] := List.length_eq_zero.mp (by omega)
    have hys : ys = [] := List.length_eq_zero.mp (by omega)
    subst hxs
    subst hys
    refine ⟨?_, ?_, ?_, ?_⟩ <;> intro c <;>
      simp [lev_nil_left, lev_nil_right]
  | succ k ih =>
    intro xs ys hk
    refine ⟨?_, ?_, ?_, ?_⟩
    · -- lev xs ys ≤ 1 + lev (a :: xs) ys
      intro a
      cases ys with
      | nil =>
        rw [lev_nil_right, lev_nil_right]
        simp
        omega
      | cons y ys' =>
        have hsum : xs.length + ys'.length ≤ k := by
          simp only [List.length_cons] at hk
          omega
        rw [lev_cons_cons a y xs ys']
        by_cases hab : a = y
        · rw [if_pos hab]
          exact (ih xs ys' hsum).2.2.2 y
        · rw [if_neg hab]
          have hiv := (ih xs ys' hsum).2.2.2 y
          have hi := (ih xs ys' hsum).1 a
          rcases min_choice (lev xs ys') (min (lev (a :: xs) ys') (lev xs (y :: ys'))) with
            h1 | h1 <;> rw [h1]
          · omega
          · rcases min_choice (lev (a :: xs) ys') (lev xs (y :: ys')) with h2 | h2 <;> rw [h2]
            · omega
            · omega
    · -- lev xs ys ≤ 1 + lev xs (b :: ys)
      intro b
      cases xs with
      | nil =>
        rw [lev_nil_left, lev_nil_left]
        simp
        omega
      | cons x xs' =>
        have hsum : xs'.length + ys.length ≤ k := by
          simp only [List.length_cons] at hk
          omega
        rw [lev_cons_cons x b xs' ys]
        by_cases hab : x = b
        · rw [if_pos hab]
          exact (ih xs' ys hsum).2.2.1 x
        · rw [if_neg hab]
          have hiii := (ih xs' ys hsum).2.2.1 x
          have hii := (ih xs' ys hsum).2.1 b
          rcases min_choice (lev xs' ys) (min (lev (x :: xs') ys) (lev xs' (b :: ys))) with
            h1 | h1 <;> rw [h1]
          · omega
          · rcases min_choice (lev (x :: xs') ys) (lev xs' (b :: ys)) with h2 | h2 <;> rw [h2]
            · omega
            · omega
    · -- lev (a :: xs) ys ≤ 1 + lev xs ys
      intro a
      cases ys with
      | nil =>
        rw [lev_nil_right, lev_nil_right]
        simp
        omega
      | cons y ys' =>
        have hsum : xs.length + ys'.length ≤ k := by
          simp only [List.length_cons] at hk
          omega
        rw [lev_cons_cons a y xs ys']
        by_cases hab : a = y
        · rw [if_pos hab]
          exact (ih xs ys' hsum).2.1 y
        · rw [if_neg hab]
          have hmin : min (lev xs ys') (min (lev (a :: xs) ys') (lev xs (y :: ys'))) ≤
              lev xs (y :: ys') :=
            le_trans (min_le_right _ _) (min_le_right _ _)
          omega
    · -- lev xs (b :: ys) ≤ 1 + lev xs ys
      intro b
      cases xs with
      | nil =>
        rw [lev_nil_left, lev_nil_left]
        simp
        omega
      | cons x xs' =>
        have hsum : xs'.length + ys.length ≤ k := by
          simp only [List.length_cons] at hk
          omega
        rw [lev_cons_cons x b xs' ys]
        by_cases hab : x = b
        · rw [if_pos hab]
          exact (ih xs' ys hsum).1 x
        · rw [if_neg hab]
          have hmin : min (lev xs' ys) (min (lev (x :: xs') ys) (lev xs' (b :: ys))) ≤
              lev (x :: xs') ys :=
            le_trans (min_le_right _ _) (min_le_left _ _)
          omega

theorem aligns_nil_left : ∀ (ys : List Char), Aligns [] ys ys.length := by
  intro ys
  induction ys with
  | nil => exact Aligns.nil
  | cons y ys ih => exact Aligns.ins y ih

theorem aligns_nil_right : ∀ (xs : List Char), Aligns xs [] xs.length := by
  intro xs
  induction xs with
  | nil => exact Aligns.nil
  | cons x xs ih => exact Aligns.del x ih

/-- The value computed by the textbook recurrence is achieved by an actual alignment. -/
theorem aligns_lev : ∀ (k : Nat) (xs ys : List Char), xs.length + ys.length ≤ k →
    Aligns xs ys (lev xs ys) := by
  intro k
  induction k with
  | zero =>
    intro xs ys hk
    have hxs : xs = [] := List.length_eq_zero.mp (by omega)
    have hys : ys = [] := List.length_eq_zero.mp (by omega)
    subst hxs
    subst hys
    rw [lev_nil_left]
    exact Aligns.nil
  | succ k ih =>
    intro xs ys hk
    cases xs with
    | nil =>
      rw [lev_nil_left]
      exact aligns_nil_left ys
    | cons x xs' =>
      cases ys with
      | nil =>
        rw [lev_nil_right]
        exact aligns_nil_right (x :: xs')
      | cons y ys' =>
        simp only [List.length_cons] at hk
        rw [lev_cons_cons]
        by_cases hxy : x = y
        · rw [if_pos hxy]
          subst hxy
          exact Aligns.keep x (ih xs' ys' (by omega))
        · rw [if_neg hxy]
          rcases min_choice (lev xs' ys') (min (lev (x :: xs') ys') (lev xs' (y :: ys'))) with
            h1 | h1 <;> rw [h1]
          · rw [Nat.add_comm]
            exact Aligns.subst x y (ih xs' ys' (by omega))
          · rcases min_choice (lev (x :: xs') ys') (lev xs' (y :: ys')) with h2 | h2 <;> rw [h2]
            · rw [Nat.add_comm]
              exact Aligns.ins y (ih (x :: xs') ys' (by simp; omega))
            · rw [Nat.add_comm]
              exact Aligns.del x (ih xs' (y :: ys') (by simp; omega))

/-- The value computed by the textbook recurrence is a lower bound on the cost of
every alignment. -/
theorem lev_le_of_aligns : ∀ {xs ys : List Char} {n : Nat}, Aligns xs ys n →
    lev xs ys ≤ n := by
  intro xs ys n h
  induction h with
  | nil => rw [lev_nil_left]; exact le_refl _
  | keep a h ih =>
    rw [lev_cons_cons, if_pos rfl]
    exact ih
  | @subst a b xs ys n h ih =>
    by_cases hab : a = b
    · rw [lev_cons_cons, if_pos hab]
      omega
    · rw [lev_cons_cons, if_neg hab]
      have hmin : min (lev xs ys) (min (lev (a :: xs) ys) (lev xs (b :: ys))) ≤ lev xs ys :=
        min_le_left _ _
      omega
  | @del a xs ys n h ih =>
    have hb := (lev_adjacent_bounds (xs.length + ys.length) xs ys (le_refl _)).2.2.1 a
    omega
  | @ins b xs ys n h ih =>
    have hb := (lev_adjacent_bounds (xs.length + ys.length) xs ys (le_refl _)).2.2.2 b
    omega

theorem aligns_append_keep {xs ys : List Char} {n : Nat} (h : Aligns xs ys n) (a : Char) :
    Aligns (xs ++ [a]) (ys ++ [a]) n := by
  induction h with
  | nil => exact Aligns.keep a Aligns.nil
  | keep c h ih => exact Aligns.keep c ih
  | subst c d h ih => exact Aligns.subst c d ih
  | del c h ih => exact Aligns.del c ih
  | ins d h ih => exact Aligns.ins d ih

theorem aligns_append_subst {xs ys : List Char} {n : Nat} (h : Aligns xs ys n) (a b : Char) :
    Aligns (xs ++ [a]) (ys ++ [b]) (n + 1) := by
  induction h with
  | nil => exact Aligns.subst a b Aligns.nil
  | keep c h ih => exact Aligns.keep c ih
  | subst c d h ih => exact Aligns.subst c d ih
  | del c h ih => exact Aligns.del c ih
  | ins d h ih => exact Aligns.ins d ih

theorem aligns_append_del {xs ys : List Char} {n : Nat} (h : Aligns xs ys n) (a : Char) :
    Aligns (xs ++ [a]) ys (n + 1) := by
  induction h with
  | nil => exact Aligns.del a Aligns.nil
  | keep c h ih => exact Aligns.keep c ih
  | subst c d h ih => exact Aligns.subst c d ih
  | del c h ih => exact Aligns.del c ih
  | ins d h ih => exact Aligns.ins d ih

theorem aligns_append_ins {xs ys : List Char} {n : Nat} (h : Aligns xs ys n) (b : Char) :
    Aligns xs (ys ++ [b]) (n + 1) := by
  induction h with
  | nil => exact Aligns.ins b Aligns.nil
  | keep c h ih => exact Aligns.keep c ih
  | subst c d h ih => exact Aligns.subst c d ih
  | del c h ih => exact Aligns.del c ih
  | ins d h ih => exact Aligns.ins d ih

theorem aligns_reverse {xs ys : List Char} {n : Nat} (h : Aligns xs ys n) :
    Aligns xs.reverse ys.reverse n := by
  induction h with
  | nil => exact Aligns.nil
  | keep a h ih =>
    rw [List.reverse_cons, List.reverse_cons]
    exact aligns_append_keep ih a
  | subst a b h ih =>
    rw [List.reverse_cons, List.reverse_cons]
    exact aligns_append_subst ih a b
  | del a h ih =>
    rw [List.reverse_cons]
    exact aligns_append_del ih a
  | ins b h ih =>
    rw [List.reverse_cons]
    exact aligns_append_ins ih b

/-- Levenshtein distance is invariant under simultaneous reversal. -/
theorem lev_reverse (xs ys : List Char) : lev xs.reverse ys.reverse = lev xs ys := by
  apply le_antisymm
  · exact lev_le_of_aligns (aligns_reverse (aligns_lev (xs.length + ys.length) xs ys (le_refl _)))
  · have h := lev_le_of_aligns (aligns_reverse
      (aligns_lev (xs.reverse.length + ys.reverse.length) xs.reverse ys.reverse (le_refl _)))
    rwa [List.reverse_reverse, List.reverse_reverse] at h

/-- The intended contents of a DP row beyond column `0`: as the scan extends the
(reversed) processed prefix `A` of `str1` by each next character, the entry is the
distance between that prefix and the (reversed) processed prefix `B` of `str2`. -/
def specRow (A B : List Char) : List Char → List Nat
  | [] => []
  | c :: cs => lev (c :: A) B :: specRow (c :: A) B cs

theorem levRowStep_spec (c2 : Char) : ∀ (s1tail A B : List Char),
    levRowStep c2 s1tail (lev A B :: specRow A B s1tail) (lev A (c2 :: B)) =
      specRow A (c2 :: B) s1tail := by
  intro s1tail
  induction s1tail with
  | nil => intro A B; rfl
  | cons c1 cs ih =>
    intro A B
    show levRowStep c2 (c1 :: cs)
        (lev A B :: (lev (c1 :: A) B :: specRow (c1 :: A) B cs)) (lev A (c2 :: B)) =
      lev (c1 :: A) (c2 :: B) :: specRow (c1 :: A) (c2 :: B) cs
    unfold levRowStep
    have hcur : (if c2 = c1 then lev A B
        else min (lev A B + 1) (min (lev A (c2 :: B) + 1)
          ((lev (c1 :: A) B :: specRow (c1 :: A) B cs).headD 0 + 1))) =
        lev (c1 :: A) (c2 :: B) := by
      rw [lev_cons_cons c1 c2 A B]
      simp only [List.headD_cons]
      by_cases h : c1 = c2
      · rw [if_pos h, if_pos (by rw [h])]
      · rw [if_neg h, if_neg (fun hc => h hc.symm)]
        omega
    rw [hcur]
    exact congrArg (List.cons (lev (c1 :: A) (c2 :: B))) (ih (c1 :: A) B)

theorem levLoop_spec (s1 : List Char) : ∀ (s2tail B : List Char),
    levLoop s1 s2tail (lev [] B :: specRow [] B s1) B.length =
      lev [] (s2tail.reverse ++ B) :: specRow [] (s2tail.reverse ++ B) s1 := by
  intro s2tail
  induction s2tail with
  | nil => intro B; rfl
  | cons c2 rest ih =>
    intro B
    show levLoop s1 rest
        ((B.length + 1) :: levRowStep c2 s1 (lev [] B :: specRow [] B s1) (B.length + 1))
        (B.length + 1) = _
    have hlen : B.length + 1 = lev [] (c2 :: B) := by
      rw [lev_nil_left]
      rfl
    rw [hlen, levRowStep_spec c2 s1 [] B]
    have := ih (c2 :: B)
    rw [show (c2 :: B).length = B.length + 1 from rfl] at this
    rw [← hlen] at this
    rw [hlen] at this
    rw [this]
    rw [List.reverse_cons, List.append_assoc]
    rfl

theorem lev_cons_nil_length (c : Char) (A : List Char) : lev (c :: A) [] = A.length + 1 := by
  rw [lev_nil_right]
  rfl

theorem specRow_range : ∀ (cs A : List Char), specRow A [] cs = List.range' (A.length + 1) cs.length := by
  intro cs
  induction cs with
  | nil => intro A; rfl
  | cons c cs' ih =>
    intro A
    show lev (c :: A) [] :: specRow (c :: A) [] cs' = _
    rw [lev_cons_nil_length, ih (c :: A)]
    rfl

theorem specRow_getLastD : ∀ (cs A B : List Char) (d : Nat),
    (lev A B :: specRow A B cs).getLastD d = lev (cs.reverse ++ A) B := by
  intro cs
  induction cs with
  | nil =>
    intro A B d
    rfl
  | cons c cs' ih =>
    intro A B d
    show (lev A B :: (lev (c :: A) B :: specRow (c :: A) B cs')).getLastD d = _
    rw [List.getLastD_cons, ih (c :: A) B (lev A B)]
    rw [List.reverse_cons, List.append_assoc]
    rfl

/-- The DP of `levenshteinDistance` computes the textbook recurrence. -/
theorem levenshteinDistance_eq_lev (str1 str2 : String) :
    levenshteinDistance str1 str2 = lev str1.data str2.data := by
  unfold levenshteinDistance
  have hinit : List.range (str1.data.length + 1) = lev [] [] :: specRow [] [] str1.data := by
    rw [List.range_eq_range', lev_nil_left, specRow_range str1.data []]
    rfl
  rw [hinit]
  have hloop := levLoop_spec str1.data str2.data []
  rw [show ([] : List Char).length = 0 from rfl] at hloop
  rw [hloop, List.append_nil, specRow_getLastD str1.data [] str2.data.reverse 0,
    List.append_nil, lev_reverse]

/-- C5: `RelationshipInference.levenshteinDistance` computes the textbook Levenshtein
edit distance: it satisfies the standard recurrence with unit costs (the function
`lev`), and it is the least cost of any sequence of single-character insertions,
deletions and substitutions transforming the first string into the second. -/
theorem RelationshipInference.levenshteinDistance_correct (str1 str2 : String) :
    levenshteinDistance str1 str2 = lev str1.data str2.data ∧
    IsLeast {n | Aligns str1.data str2.data n} (levenshteinDistance str1 str2) := by
  have he := levenshteinDistance_eq_lev str1 str2
  refine ⟨he, ?_, ?_⟩
  · show Aligns str1.data str2.data (levenshteinDistance str1 str2)
    rw [he]
    exact aligns_lev (str1.data.length + str2.data.length) str1.data str2.data (le_refl _)
  · intro n hn
    rw [he]
    exact lev_le_of_aligns hn

/-! ## RelationshipInference.deduplicateRelationships

The source keys each relationship by the string
`leftTable.leftColumn-rightTable.rightColumn` in a JS `Map`, looks up the key and the
reversed key, keeps the higher-confidence relationship (`set` then `delete` of the
reverse key), and finally sorts the values by descending confidence. -/

namespace RelationshipInference

def dedupKey (rel : InferredRelationship) : String :=
  rel.leftTable ++ "." ++ rel.leftColumn ++ "-" ++ rel.rightTable ++ "." ++ rel.rightColumn

def dedupReverseKey (rel : InferredRelationship) : String :=
  rel.rightTable ++ "." ++ rel.rightColumn ++ "-" ++ rel.leftTable ++ "." ++ rel.leftColumn

/-- JS `Map.get` on an insertion-ordered association list. -/
def mapGet : List (String × InferredRelationship) → String → Option InferredRelationship
  | [], _ => none
  | e :: rest, k => if e.1 = k then some e.2 else mapGet rest k

/-- JS `Map.set`: replace in place, or append a new entry. -/
def mapSet : List (String × InferredRelationship) → String → InferredRelationship →
    List (String × InferredRelationship)
  | [], k, v => [(k, v)]
  | e :: rest, k, v => if e.1 = k then (k, v) :: rest else e :: mapSet rest k v

/-- JS `Map.delete`. -/
def mapDelete : List (String × InferredRelationship) → String →
    List (String × InferredRelationship)
  | [], _ => []
  | e :: rest, k => if e.1 = k then rest else e :: mapDelete rest k

/-- One iteration of the deduplication loop. -/
def dedupStep (m : List (String × InferredRelationship)) (rel : InferredRelationship) :
    List (String × InferredRelationship) :=
  let key := dedupKey rel
  let reverseKey := dedupReverseKey rel
  let existing : Option InferredRelationship :=
    match mapGet m key with
    | some v => some v
    | none => mapGet m reverseKey
  match existing with
  | none => mapDelete (mapSet m key rel) reverseKey
  | some ex =>
    if rel.confidence > ex.confidence then mapDelete (mapSet m key rel) reverseKey else m

/-- The final `sort((a, b) => b.confidence - a.confidence)`, modelled as an insertion
sort by descending confidence. -/
def insertByConfidenceDesc (r : InferredRelationship) :
    List InferredRelationship → List InferredRelationship
  | [] => [r]
  | s :: rest =>
    if r.confidence ≤ s.confidence then s :: insertByConfidenceDesc r rest
    else r :: s :: rest

def sortByConfidenceDesc : List InferredRelationship → List InferredRelationship
  | [] => []
  | r :: rest => insertByConfidenceDesc r (sortByConfidenceDesc rest)

/-- Embedding of `deduplicateRelationships`. -/
def deduplicateRelationships (relationships : List InferredRelationship) :
    List InferredRelationship :=
  sortByConfidenceDesc ((relationships.foldl dedupStep []).map Prod.snd)

/-- Two relationships over the same unordered endpoint pair (equal, or with the two
endpoints exchanged). -/
def samePair (r s : InferredRelationship) : Prop :=
  (r.leftTable = s.leftTable ∧ r.leftColumn = s.leftColumn ∧
    r.rightTable = s.rightTable ∧ r.rightColumn = s.rightColumn) ∨
  (r.leftTable = s.rightTable ∧ r.leftColumn = s.rightColumn ∧
    r.rightTable = s.leftTable ∧ r.rightColumn = s.leftColumn)

instance (r s : InferredRelationship) : Decidable (samePair r s) := by
  unfold samePair
  infer_instance

end RelationshipInference

/-- Input for the C10 counterexample: its endpoints collide through the `-` and `.`
separators of the map keys. -/
def RelationshipInference.crRel1 : InferredRelationship :=
  ⟨"p", "p", "q", "q-r.r", "one_to_many", "left", 9, "column_name", none, []⟩

def RelationshipInference.crRel2 : InferredRelationship :=
  ⟨"r", "r", "p", "p-q.q", "one_to_many", "left", 19, "column_name", none, []⟩

def RelationshipInference.crRel3 : InferredRelationship :=
  ⟨"p", "p", "q", "q-r.r", "one_to_many", "left", 5, "column_name", none, []⟩

/-- C10 counterexample: with endpoint names containing the separator characters, the
reverse key of `crRel2` collides with the key of `crRel1`, so processing `crRel2`
deletes `crRel1`'s entry while parking `crRel2` under a key that the later lookups for
`crRel1`'s pair miss; `crRel3` (same endpoints as `crRel1`, lower confidence) is then
retained.  The output pair (p, p, q, q-r.r) is kept with confidence 5 although the
input `crRel1` has the same endpoints and confidence 9. -/
theorem RelationshipInference.deduplicateRelationships_counterexample :
    RelationshipInference.deduplicateRelationships
        [RelationshipInference.crRel1, RelationshipInference.crRel2,
          RelationshipInference.crRel3] =
      [RelationshipInference.crRel2, RelationshipInference.crRel3] ∧
    RelationshipInference.crRel3.leftTable = RelationshipInference.crRel1.leftTable ∧
    RelationshipInference.crRel3.leftColumn = RelationshipInference.crRel1.leftColumn ∧
    RelationshipInference.crRel3.rightTable = RelationshipInference.crRel1.rightTable ∧
    RelationshipInference.crRel3.rightColumn = RelationshipInference.crRel1.rightColumn ∧
    RelationshipInference.crRel3.confidence < RelationshipInference.crRel1.confidence := by
  refine ⟨?_, rfl, rfl, rfl, rfl, by decide⟩
  decide

namespace RelationshipInference

theorem samePair_refl (r : InferredRelationship) : samePair r r :=
  Or.inl ⟨rfl, rfl, rfl, rfl⟩

theorem samePair_symm {r s : InferredRelationship} (h : samePair r s) : samePair s r := by
  rcases h with ⟨h1, h2, h3, h4⟩ | ⟨h1, h2, h3, h4⟩
  · exact Or.inl ⟨h1.symm, h2.symm, h3.symm, h4.symm⟩
  · exact Or.inr ⟨h3.symm, h4.symm, h1.symm, h2.symm⟩

theorem samePair_trans {r s t : InferredRelationship} (hrs : samePair r s)
    (hst : samePair s t) : samePair r t := by
  rcases hrs with ⟨h1, h2, h3, h4⟩ | ⟨h1, h2, h3, h4⟩ <;>
    rcases hst with ⟨g1, g2, g3, g4⟩ | ⟨g1, g2, g3, g4⟩
  · exact Or.inl ⟨h1.trans g1, h2.trans g2, h3.trans g3, h4.trans g4⟩
  · exact Or.inr ⟨h1.trans g1, h2.trans g2, h3.trans g3, h4.trans g4⟩
  · exact Or.inr ⟨h1.trans g3, h2.trans g4, h3.trans g1, h4.trans g2⟩
  · exact Or.inl ⟨h1.trans g3, h2.trans g4, h3.trans g1, h4.trans g2⟩

/-- Key correspondence for relationships over the same unordered pair. -/
theorem keys_of_samePair {r s : InferredRelationship} (h : samePair r s) :
    (dedupKey s = dedupKey r ∧ dedupReverseKey s = dedupReverseKey r) ∨
    (dedupKey s = dedupReverseKey r ∧ dedupReverseKey s = dedupKey r) := by
  rcases h with ⟨h1, h2, h3, h4⟩ | ⟨h1, h2, h3, h4⟩
  · left
    constructor <;> simp [dedupKey, dedupReverseKey, h1, h2, h3, h4]
  · right
    constructor <;> simp [dedupKey, dedupReverseKey, h1, h2, h3, h4]

theorem palindromic_iff_of_samePair {r s : InferredRelationship} (h : samePair r s) :
    dedupKey s = dedupReverseKey s ↔ dedupKey r = dedupReverseKey r := by
  rcases keys_of_samePair h with ⟨h1, h2⟩ | ⟨h1, h2⟩
  · rw [h1, h2]
  · rw [h1, h2]
    exact eq_comm

/-- An endpoint name that contains neither of the key separator characters. -/
def SepFree (s : String) : Prop := ∀ c ∈ s.data, c ≠ '.' ∧ c ≠ '-'

instance (s : String) : Decidable (SepFree s) := by
  unfold SepFree
  infer_instance

def GoodEndpoints (r : InferredRelationship) : Prop :=
  SepFree r.leftTable ∧ SepFree r.leftColumn ∧ SepFree r.rightTable ∧ SepFree r.rightColumn

instance (r : InferredRelationship) : Decidable (GoodEndpoints r) := by
  unfold GoodEndpoints
  infer_instance

theorem append_sep_inj {sep : Char} :
    ∀ {u1 : List Char} {u2 v1 v2 : List Char}, sep ∉ u1 → sep ∉ u2 →
      u1 ++ sep :: v1 = u2 ++ sep :: v2 → u1 = u2 ∧ v1 = v2 := by
  intro u1
  induction u1 with
  | nil =>
    intro u2 v1 v2 _ hu2 h
    cases u2 with
    | nil =>
      simp only [List.nil_append, List.cons.injEq] at h
      exact ⟨rfl, h.2⟩
    | cons x u2' =>
      simp only [List.nil_append, List.cons_append, List.cons.injEq] at h
      obtain ⟨hsx, -⟩ := h
      subst hsx
      exact absurd (List.mem_cons_self _ _) hu2
  | cons x u1' ih =>
    intro u2 v1 v2 hu1 hu2 h
    cases u2 with
    | nil =>
      simp only [List.cons_append, List.nil_append, List.cons.injEq] at h
      obtain ⟨hxs, -⟩ := h
      subst hxs
      exact absurd (List.mem_cons_self _ _) hu1
    | cons y u2' =>
      simp only [List.cons_append, List.cons.injEq] at h
      obtain ⟨rfl, h2⟩ := h
      have hu1' : sep ∉ u1' := fun hc => hu1 (List.mem_cons_of_mem x hc)
      have hu2' : sep ∉ u2' := fun hc => hu2 (List.mem_cons_of_mem x hc)
      obtain ⟨he, hv⟩ := ih hu1' hu2' h2
      exact ⟨by rw [he], hv⟩

theorem dedupKey_data (r : InferredRelationship) :
    (dedupKey r).data = (r.leftTable.data ++ '.' :: r.leftColumn.data) ++
      '-' :: (r.rightTable.data ++ '.' :: r.rightColumn.data) := by
  simp [dedupKey, String.data_append]

theorem sepFree_dot_not_mem {s : String} (h : SepFree s) : '.' ∉ s.data :=
  fun hc => (h '.' hc).1 rfl

theorem sepFree_dash_not_mem {s : String} (h : SepFree s) : '-' ∉ s.data :=
  fun hc => (h '-' hc).2 rfl

theorem dedupKey_inj {r s : InferredRelationship} (hr : GoodEndpoints r)
    (hs : GoodEndpoints s) (h : dedupKey r = dedupKey s) :
    r.leftTable = s.leftTable ∧ r.leftColumn = s.leftColumn ∧
      r.rightTable = s.rightTable ∧ r.rightColumn = s.rightColumn := by
  have hdata := congrArg String.data h
  rw [dedupKey_data, dedupKey_data] at hdata
  have hdashr : '-' ∉ r.leftTable.data ++ '.' :: r.leftColumn.data := by
    intro hc
    rcases List.mem_append.mp hc with hc | hc
    · exact sepFree_dash_not_mem hr.1 hc
    · rcases List.mem_cons.mp hc with hc | hc
      · exact absurd hc (by decide)
      · exact sepFree_dash_not_mem hr.2.1 hc
  have hdashs : '-' ∉ s.leftTable.data ++ '.' :: s.leftColumn.data := by
    intro hc
    rcases List.mem_append.mp hc with hc | hc
    · exact sepFree_dash_not_mem hs.1 hc
    · rcases List.mem_cons.mp hc with hc | hc
      · exact absurd hc (by decide)
      · exact sepFree_dash_not_mem hs.2.1 hc
  obtain ⟨hleft, hright⟩ := append_sep_inj hdashr hdashs hdata
  obtain ⟨hlt, hlc⟩ := append_sep_inj (sepFree_dot_not_mem hr.1) (sepFree_dot_not_mem hs.1) hleft
  obtain ⟨hrt, hrc⟩ := append_sep_inj (sepFree_dot_not_mem hr.2.2.1) (sepFree_dot_not_mem hs.2.2.1) hright
  exact ⟨String.ext hlt, String.ext hlc, String.ext hrt, String.ext hrc⟩

/-- Exchanging the two endpoints; the reverse key of `r` is the key of `swapRel r`. -/
def swapRel (r : InferredRelationship) : InferredRelationship :=
  { r with
    leftTable := r.rightTable
    leftColumn := r.rightColumn
    rightTable := r.leftTable
    rightColumn := r.leftColumn }

theorem dedupReverseKey_eq_swap (r : InferredRelationship) :
    dedupReverseKey r = dedupKey (swapRel r) := rfl

theorem goodEndpoints_swap {r : InferredRelationship} (h : GoodEndpoints r) :
    GoodEndpoints (swapRel r) :=
  ⟨h.2.2.1, h.2.2.2, h.1, h.2.1⟩

theorem samePair_of_key_eq {r s : InferredRelationship} (hr : GoodEndpoints r)
    (hs : GoodEndpoints s) (h : dedupKey s = dedupKey r) : samePair r s := by
  obtain ⟨h1, h2, h3, h4⟩ := dedupKey_inj hs hr h
  exact Or.inl ⟨h1.symm, h2.symm, h3.symm, h4.symm⟩

theorem samePair_of_key_eq_reverse {r s : InferredRelationship} (hr : GoodEndpoints r)
    (hs : GoodEndpoints s) (h : dedupKey s = dedupReverseKey r) : samePair r s := by
  rw [dedupReverseKey_eq_swap] at h
  obtain ⟨h1, h2, h3, h4⟩ := dedupKey_inj hs (goodEndpoints_swap hr) h
  exact Or.inr ⟨h3.symm, h4.symm, h1.symm, h2.symm⟩

end RelationshipInference

namespace RelationshipInference

/-- Distinctness of the keys of the association list modelling the JS `Map`. -/
def KeysDistinct (m : List (String × InferredRelationship)) : Prop :=
  m.Pairwise (fun a b => a.1 ≠ b.1)

theorem mapGet_none_iff {m : List (String × InferredRelationship)} {k : String} :
    mapGet m k = none ↔ ∀ e ∈ m, e.1 ≠ k := by
  induction m with
  | nil => simp [mapGet]
  | cons e rest ih =>
    unfold mapGet
    by_cases he : e.1 = k
    · simp [he]
    · simp only [if_neg he, ih, List.mem_cons]
      constructor
      · intro h f hf
        rcases hf with rfl | hf
        · exact he
        · exact h f hf
      · intro h f hf
        exact h f (Or.inr hf)

theorem mapGet_some_mem {m : List (String × InferredRelationship)} {k : String}
    {v : InferredRelationship} (h : mapGet m k = some v) : (k, v) ∈ m := by
  induction m with
  | nil => simp [mapGet] at h
  | cons e rest ih =>
    unfold mapGet at h
    by_cases he : e.1 = k
    · rw [if_pos he] at h
      simp only [Option.some.injEq] at h
      have : e = (k, v) := by
        obtain ⟨e1, e2⟩ := e
        simp only at he h
        rw [he, h]
      rw [← this]
      exact List.mem_cons_self e rest
    · rw [if_neg he] at h
      exact List.mem_cons_of_mem e (ih h)

theorem mem_mapSet_weak {m : List (String × InferredRelationship)} {k : String}
    {v : InferredRelationship} {f : String × InferredRelationship}
    (h : f ∈ mapSet m k v) : f = (k, v) ∨ f ∈ m := by
  induction m with
  | nil => simpa [mapSet] using h
  | cons e rest ih =>
    unfold mapSet at h
    by_cases he : e.1 = k
    · rw [if_pos he] at h
      rcases List.mem_cons.mp h with rfl | hf
      · exact Or.inl rfl
      · exact Or.inr (List.mem_cons_of_mem e hf)
    · rw [if_neg he] at h
      rcases List.mem_cons.mp h with rfl | hf
      · exact Or.inr (List.mem_cons_self f rest)
      · rcases ih hf with hf' | hf'
        · exact Or.inl hf'
        · exact Or.inr (List.mem_cons_of_mem e hf')

theorem mem_mapSet_iff {m : List (String × InferredRelationship)} {k : String}
    {v : InferredRelationship} {f : String × InferredRelationship} (hd : KeysDistinct m) :
    f ∈ mapSet m k v ↔ f = (k, v) ∨ (f ∈ m ∧ f.1 ≠ k) := by
  induction m with
  | nil => simp [mapSet]
  | cons e rest ih =>
    rw [KeysDistinct, List.pairwise_cons] at hd
    obtain ⟨he2, hrest⟩ := hd
    unfold mapSet
    by_cases he : e.1 = k
    · rw [if_pos he]
      constructor
      · intro h
        rcases List.mem_cons.mp h with rfl | hf
        · exact Or.inl rfl
        · refine Or.inr ⟨List.mem_cons_of_mem e hf, ?_⟩
          rw [← he]
          exact (he2 f hf).symm
      · intro h
        rcases h with rfl | ⟨hmem, hk⟩
        · exact List.mem_cons_self _ _
        · rcases List.mem_cons.mp hmem with rfl | hf
          · exact absurd he hk
          · exact List.mem_cons_of_mem _ hf
    · rw [if_neg he]
      constructor
      · intro h
        rcases List.mem_cons.mp h with rfl | hf
        · exact Or.inr ⟨List.mem_cons_self f rest, he⟩
        · rcases (ih hrest).mp hf with hf' | ⟨hf1, hf2⟩
          · exact Or.inl hf'
          · exact Or.inr ⟨List.mem_cons_of_mem e hf1, hf2⟩
      · intro h
        rcases h with rfl | ⟨hmem, hk⟩
        · exact List.mem_cons_of_mem e ((ih hrest).mpr (Or.inl rfl))
        · rcases List.mem_cons.mp hmem with rfl | hf
          · exact List.mem_cons_self _ _
          · exact List.mem_cons_of_mem e ((ih hrest).mpr (Or.inr ⟨hf, hk⟩))

theorem mem_mapDelete_iff {m : List (String × InferredRelationship)} {k : String}
    {f : String × InferredRelationship} (hd : KeysDistinct m) :
    f ∈ mapDelete m k ↔ f ∈ m ∧ f.1 ≠ k := by
  induction m with
  | nil => simp [mapDelete]
  | cons e rest ih =>
    rw [KeysDistinct, List.pairwise_cons] at hd
    obtain ⟨he2, hrest⟩ := hd
    unfold mapDelete
    by_cases he : e.1 = k
    · rw [if_pos he]
      constructor
      · intro h
        refine ⟨List.mem_cons_of_mem e h, ?_⟩
        rw [← he]
        exact (he2 f h).symm
      · intro ⟨hmem, hk⟩
        rcases List.mem_cons.mp hmem with rfl | hf
        · exact absurd he hk
        · exact hf
    · rw [if_neg he]
      constructor
      · intro h
        rcases List.mem_cons.mp h with rfl | hf
        · exact ⟨List.mem_cons_self f rest, he⟩
        · obtain ⟨h1, h2⟩ := (ih hrest).mp hf
          exact ⟨List.mem_cons_of_mem e h1, h2⟩
      · intro ⟨hmem, hk⟩
        rcases List.mem_cons.mp hmem with rfl | hf
        · exact List.mem_cons_self _ _
        · exact List.mem_cons_of_mem e ((ih hrest).mpr ⟨hf, hk⟩)

theorem keysDistinct_mapSet {m : List (String × InferredRelationship)} {k : String}
    {v : InferredRelationship} (hd : KeysDistinct m) : KeysDistinct (mapSet m k v) := by
  induction m with
  | nil => simp [mapSet, KeysDistinct]
  | cons e rest ih =>
    rw [KeysDistinct, List.pairwise_cons] at hd
    obtain ⟨he2, hrest⟩ := hd
    unfold mapSet
    by_cases he : e.1 = k
    · rw [if_pos he]
      rw [KeysDistinct, List.pairwise_cons]
      refine ⟨?_, hrest⟩
      intro f hf
      rw [← he]
      exact he2 f hf
    · rw [if_neg he]
      rw [KeysDistinct, List.pairwise_cons]
      refine ⟨?_, ih hrest⟩
      intro f hf
      rcases mem_mapSet_weak hf with rfl | hf'
      · exact he
      · exact he2 f hf'

theorem mem_mapDelete_weak {m : List (String × InferredRelationship)} {k : String}
    {f : String × InferredRelationship} (h : f ∈ mapDelete m k) : f ∈ m := by
  induction m with
  | nil => simpa [mapDelete] using h
  | cons e rest ih =>
    unfold mapDelete at h
    by_cases he : e.1 = k
    · rw [if_pos he] at h
      exact List.mem_cons_of_mem e h
    · rw [if_neg he] at h
      rcases List.mem_cons.mp h with rfl | hf
      · exact List.mem_cons_self f rest
      · exact List.mem_cons_of_mem e (ih hf)

theorem keysDistinct_mapDelete {m : List (String × InferredRelationship)} {k : String}
    (hd : KeysDistinct m) : KeysDistinct (mapDelete m k) := by
  induction m with
  | nil => simp [mapDelete, KeysDistinct]
  | cons e rest ih =>
    rw [KeysDistinct, List.pairwise_cons] at hd
    obtain ⟨he2, hrest⟩ := hd
    unfold mapDelete
    by_cases he : e.1 = k
    · rw [if_pos he]
      exact hrest
    · rw [if_neg he]
      rw [KeysDistinct, List.pairwise_cons]
      exact ⟨fun f hf => he2 f (mem_mapDelete_weak hf), ih hrest⟩

theorem entries_unique {m : List (String × InferredRelationship)} (hd : KeysDistinct m)
    {e f : String × InferredRelationship} (he : e ∈ m) (hf : f ∈ m) (h : e.1 = f.1) :
    e = f := by
  induction m with
  | nil => exact absurd he (List.not_mem_nil e)
  | cons g rest ih =>
    rw [KeysDistinct, List.pairwise_cons] at hd
    obtain ⟨hg2, hrest⟩ := hd
    rcases List.mem_cons.mp he with rfl | he' <;> rcases List.mem_cons.mp hf with rfl | hf'
    · rfl
    · exact absurd h (hg2 f hf')
    · exact absurd h.symm (hg2 e he')
    · exact ih hrest he' hf'

end RelationshipInference

namespace RelationshipInference

/-- Invariant of the deduplication loop after processing the input prefix `seen`:
keys are distinct and equal to the key of their value, every stored value comes from
`seen`, no two distinct entries cover the same unordered pair, every entry dominates
(in confidence) all processed relationships over its pair, and every processed
relationship with a non-palindromic pair is still represented by some entry. -/
def MapInv (seen : List InferredRelationship)
    (m : List (String × InferredRelationship)) : Prop :=
  KeysDistinct m ∧
  (∀ e ∈ m, e.1 = dedupKey e.2 ∧ e.2 ∈ seen) ∧
  (∀ e ∈ m, ∀ f ∈ m, samePair e.2 f.2 → e = f) ∧
  (∀ e ∈ m, ∀ s ∈ seen, samePair e.2 s → s.confidence ≤ e.2.confidence) ∧
  (∀ s ∈ seen, dedupKey s ≠ dedupReverseKey s → ∃ e ∈ m, samePair e.2 s)

theorem entry_key_of_samePair_rel {m : List (String × InferredRelationship)}
    {rel : InferredRelationship}
    (hkeys : ∀ e ∈ m, e.1 = dedupKey e.2) {e : String × InferredRelationship}
    (he : e ∈ m) (hsp : samePair rel e.2) :
    e.1 = dedupKey rel ∨ e.1 = dedupReverseKey rel := by
  have hk := hkeys e he
  rcases keys_of_samePair hsp with ⟨h1, -⟩ | ⟨h1, -⟩
  · left
    rw [hk, h1]
  · right
    rw [hk, h1]

theorem samePair_rel_of_entry_key {m : List (String × InferredRelationship)}
    {rel : InferredRelationship} (hgrel : GoodEndpoints rel)
    (hgm : ∀ e ∈ m, GoodEndpoints e.2)
    (hkeys : ∀ e ∈ m, e.1 = dedupKey e.2) {e : String × InferredRelationship}
    (he : e ∈ m) (h : e.1 = dedupKey rel ∨ e.1 = dedupReverseKey rel) :
    samePair rel e.2 := by
  have hk := hkeys e he
  rcases h with h | h
  · exact samePair_of_key_eq hgrel (hgm e he) (by rw [← hk, h])
  · exact samePair_of_key_eq_reverse hgrel (hgm e he) (by rw [← hk, h])

/-- Invariant preservation for the branches of `dedupStep` that write the new
relationship into the map (`set` at the key, then `delete` of the reverse key). -/
theorem dedupStep_write_inv {seen : List InferredRelationship}
    {m : List (String × InferredRelationship)} {rel : InferredRelationship}
    (hgseen : ∀ r ∈ seen, GoodEndpoints r) (hgrel : GoodEndpoints rel)
    (hinv : MapInv seen m)
    (h4 : dedupKey rel ≠ dedupReverseKey rel →
      ∀ s ∈ seen, samePair rel s → s.confidence ≤ rel.confidence) :
    MapInv (seen ++ [rel]) (mapDelete (mapSet m (dedupKey rel) rel) (dedupReverseKey rel)) := by
  obtain ⟨hd, hkeys, huniq, hdom, hrep⟩ := hinv
  have hgm : ∀ e ∈ m, GoodEndpoints e.2 := fun e he => hgseen e.2 (hkeys e he).2
  have hkeys' : ∀ e ∈ m, e.1 = dedupKey e.2 := fun e he => (hkeys e he).1
  have hmem : ∀ f, f ∈ mapDelete (mapSet m (dedupKey rel) rel) (dedupReverseKey rel) ↔
      (f = (dedupKey rel, rel) ∨ (f ∈ m ∧ f.1 ≠ dedupKey rel)) ∧
        f.1 ≠ dedupReverseKey rel := by
    intro f
    rw [mem_mapDelete_iff (keysDistinct_mapSet hd), mem_mapSet_iff hd]
  refine ⟨keysDistinct_mapDelete (keysDistinct_mapSet hd), ?_, ?_, ?_, ?_⟩
  · -- keys and provenance
    intro e he
    rcases ((hmem e).mp he).1 with rfl | ⟨he', -⟩
    · exact ⟨rfl, List.mem_append_right seen (List.mem_cons_self rel [])⟩
    · exact ⟨hkeys' e he', List.mem_append_left [rel] (hkeys e he').2⟩
  · -- at most one entry per unordered pair
    intro e he f hf hsp
    obtain ⟨he1, he2⟩ := (hmem e).mp he
    obtain ⟨hf1, hf2⟩ := (hmem f).mp hf
    rcases he1 with rfl | ⟨he', hek⟩ <;> rcases hf1 with rfl | ⟨hf', hfk⟩
    · rfl
    · exfalso
      rcases entry_key_of_samePair_rel hkeys' hf' hsp with h | h
      · exact hfk h
      · exact hf2 h
    · exfalso
      rcases entry_key_of_samePair_rel hkeys' he' (samePair_symm hsp) with h | h
      · exact hek h
      · exact he2 h
    · exact huniq e he' f hf' hsp
  · -- dominance over all processed relationships
    intro e he s hs hsp
    obtain ⟨he1, he2⟩ := (hmem e).mp he
    rcases List.mem_append.mp hs with hs' | hs'
    · rcases he1 with rfl | ⟨he', hek⟩
      · exact h4 he2 s hs' hsp
      · exact hdom e he' s hs' hsp
    · have hsrel : s = rel := List.mem_singleton.mp hs'
      subst hsrel
      rcases he1 with rfl | ⟨he', hek⟩
      · exact le_refl _
      · exfalso
        rcases entry_key_of_samePair_rel hkeys' he' (samePair_symm hsp) with h | h
        · exact hek h
        · exact he2 h
  · -- non-palindromic pairs stay represented
    intro s hs hpal
    rcases List.mem_append.mp hs with hs' | hs'
    · obtain ⟨f, hf, hfsp⟩ := hrep s hs' hpal
      by_cases hfK : f.1 = dedupKey rel ∨ f.1 = dedupReverseKey rel
      · -- the old representative was overwritten; the new entry covers the pair
        have hsprel : samePair rel f.2 :=
          samePair_rel_of_entry_key hgrel hgm hkeys' hf hfK
        have hsp2 : samePair rel s := samePair_trans hsprel hfsp
        have hnotpal : dedupKey rel ≠ dedupReverseKey rel := by
          intro hpalrel
          exact hpal ((palindromic_iff_of_samePair hsp2).mpr hpalrel)
        refine ⟨(dedupKey rel, rel), ?_, hsp2⟩
        rw [hmem]
        exact ⟨Or.inl rfl, hnotpal⟩
      · push_neg at hfK
        refine ⟨f, ?_, hfsp⟩
        rw [hmem]
        exact ⟨Or.inr ⟨hf, hfK.1⟩, hfK.2⟩
    · have hsrel : s = rel := List.mem_singleton.mp hs'
      subst hsrel
      refine ⟨(dedupKey s, s), ?_, samePair_refl s⟩
      rw [hmem]
      exact ⟨Or.inl rfl, hpal⟩

end RelationshipInference

namespace RelationshipInference

/-- Key fact for the lookup branches: the `existing` relationship found under the key
or the reverse key covers the same unordered pair as `rel`. -/
theorem existing_samePair {seen : List InferredRelationship}
    {m : List (String × InferredRelationship)} {rel ex : InferredRelationship}
    {k : String} (hgseen : ∀ r ∈ seen, GoodEndpoints r) (hgrel : GoodEndpoints rel)
    (hkeys : ∀ e ∈ m, e.1 = dedupKey e.2 ∧ e.2 ∈ seen)
    (hget : mapGet m k = some ex)
    (hk : k = dedupKey rel ∨ k = dedupReverseKey rel) :
    samePair rel ex ∧ ex ∈ seen := by
  have hmem : (k, ex) ∈ m := mapGet_some_mem hget
  obtain ⟨hkey, hseen⟩ := hkeys (k, ex) hmem
  have hgex : GoodEndpoints ex := hgseen ex hseen
  rcases hk with rfl | rfl
  · exact ⟨samePair_of_key_eq hgrel hgex hkey.symm, hseen⟩
  · exact ⟨samePair_of_key_eq_reverse hgrel hgex hkey.symm, hseen⟩

/-- Invariant preservation for the non-writing branch (an existing entry with
confidence at least that of `rel` is kept). -/
theorem dedupStep_keep_inv {seen : List InferredRelationship}
    {m : List (String × InferredRelationship)} {rel ex : InferredRelationship}
    {k : String} (hgseen : ∀ r ∈ seen, GoodEndpoints r) (hgrel : GoodEndpoints rel)
    (hinv : MapInv seen m) (hget : mapGet m k = some ex)
    (hk : k = dedupKey rel ∨ k = dedupReverseKey rel)
    (hconf : ¬ rel.confidence > ex.confidence) :
    MapInv (seen ++ [rel]) m := by
  obtain ⟨hd, hkeys, huniq, hdom, hrep⟩ := hinv
  have hgm : ∀ e ∈ m, GoodEndpoints e.2 := fun e he => hgseen e.2 (hkeys e he).2
  have hkeys' : ∀ e ∈ m, e.1 = dedupKey e.2 := fun e he => (hkeys e he).1
  obtain ⟨hspex, hexseen⟩ := existing_samePair hgseen hgrel hkeys hget hk
  have hexmem : (k, ex) ∈ m := mapGet_some_mem hget
  refine ⟨hd, ?_, huniq, ?_, ?_⟩
  · intro e he
    exact ⟨hkeys' e he, List.mem_append_left [rel] (hkeys e he).2⟩
  · intro e he s hs hsp
    rcases List.mem_append.mp hs with hs' | hs'
    · exact hdom e he s hs' hsp
    · have hsrel : s = rel := List.mem_singleton.mp hs'
      subst hsrel
      -- the entry covering rel's pair is exactly the one found by the lookup
      have hspe : samePair ex e.2 := samePair_trans (samePair_symm hspex) (samePair_symm hsp)
      have he_eq : (k, ex) = e := huniq (k, ex) hexmem e he hspe
      have : e.2 = ex := by rw [← he_eq]
      rw [this]
      exact not_lt.mp hconf
  · intro s hs hpal
    rcases List.mem_append.mp hs with hs' | hs'
    · exact hrep s hs' hpal
    · have hsrel : s = rel := List.mem_singleton.mp hs'
      subst hsrel
      exact ⟨(k, ex), hexmem, samePair_symm hspex⟩

/-- One step of the deduplication loop preserves the invariant. -/
theorem dedupStep_inv {seen : List InferredRelationship}
    {m : List (String × InferredRelationship)} {rel : InferredRelationship}
    (hgseen : ∀ r ∈ seen, GoodEndpoints r) (hgrel : GoodEndpoints rel)
    (hinv : MapInv seen m) : MapInv (seen ++ [rel]) (dedupStep m rel) := by
  obtain ⟨hd, hkeys, huniq, hdom, hrep⟩ := hinv
  have hgm : ∀ e ∈ m, GoodEndpoints e.2 := fun e he => hgseen e.2 (hkeys e he).2
  have hkeys' : ∀ e ∈ m, e.1 = dedupKey e.2 := fun e he => (hkeys e he).1
  have hinv' : MapInv seen m := ⟨hd, hkeys, huniq, hdom, hrep⟩
  unfold dedupStep
  cases hK : mapGet m (dedupKey rel) with
  | some ex =>
    simp only [hK]
    obtain ⟨hspex, hexseen⟩ :=
      existing_samePair hgseen hgrel hkeys hK (Or.inl rfl)
    by_cases hconf : rel.confidence > ex.confidence
    · rw [if_pos hconf]
      apply dedupStep_write_inv hgseen hgrel hinv'
      intro _ s hs hsp
      have hspexs : samePair ex s := samePair_trans (samePair_symm hspex) hsp
      have := hdom (dedupKey rel, ex) (mapGet_some_mem hK) s hs hspexs
      exact le_trans this (le_of_lt hconf)
    · rw [if_neg hconf]
      exact dedupStep_keep_inv hgseen hgrel hinv' hK (Or.inl rfl) hconf
  | none =>
    simp only [hK]
    cases hRK : mapGet m (dedupReverseKey rel) with
    | some ex =>
      simp only [hRK]
      obtain ⟨hspex, hexseen⟩ :=
        existing_samePair hgseen hgrel hkeys hRK (Or.inr rfl)
      by_cases hconf : rel.confidence > ex.confidence
      · rw [if_pos hconf]
        apply dedupStep_write_inv hgseen hgrel hinv'
        intro _ s hs hsp
        have hspexs : samePair ex s := samePair_trans (samePair_symm hspex) hsp
        have := hdom (dedupReverseKey rel, ex) (mapGet_some_mem hRK) s hs hspexs
        exact le_trans this (le_of_lt hconf)
      · rw [if_neg hconf]
        exact dedupStep_keep_inv hgseen hgrel hinv' hRK (Or.inr rfl) hconf
    | none =>
      simp only [hRK]
      apply dedupStep_write_inv hgseen hgrel hinv'
      intro hnotpal s hs hsp
      exfalso
      have hsnotpal : dedupKey s ≠ dedupReverseKey s := by
        intro hpals
        exact hnotpal ((palindromic_iff_of_samePair hsp).mp hpals)
      obtain ⟨e, he, hesp⟩ := hrep s hs hsnotpal
      have hsprel : samePair rel e.2 := samePair_trans hsp (samePair_symm hesp)
      rcases entry_key_of_samePair_rel hkeys' he hsprel with h | h
      · exact (mapGet_none_iff.mp hK e he) h
      · exact (mapGet_none_iff.mp hRK e he) h

end RelationshipInference

namespace RelationshipInference

theorem insertByConfidenceDesc_perm (r : InferredRelationship) :
    ∀ (l : List InferredRelationship), (insertByConfidenceDesc r l).Perm (r :: l) := by
  intro l
  induction l with
  | nil => exact List.Perm.refl _
  | cons s rest ih =>
    unfold insertByConfidenceDesc
    by_cases h : r.confidence ≤ s.confidence
    · rw [if_pos h]
      exact List.Perm.trans (List.Perm.cons s ih) (List.Perm.swap r s rest)
    · rw [if_neg h]

theorem sortByConfidenceDesc_perm :
    ∀ (l : List InferredRelationship), (sortByConfidenceDesc l).Perm l := by
  intro l
  induction l with
  | nil => exact List.Perm.refl _
  | cons r rest ih =>
    unfold sortByConfidenceDesc
    exact List.Perm.trans (insertByConfidenceDesc_perm r (sortByConfidenceDesc rest))
      (List.Perm.cons r ih)

theorem pairwise_insertByConfidenceDesc (r : InferredRelationship) :
    ∀ (l : List InferredRelationship),
      l.Pairwise (fun a b => b.confidence ≤ a.confidence) →
      (insertByConfidenceDesc r l).Pairwise (fun a b => b.confidence ≤ a.confidence) := by
  intro l
  induction l with
  | nil =>
    intro _
    simp [insertByConfidenceDesc]
  | cons s rest ih =>
    intro h
    rw [List.pairwise_cons] at h
    obtain ⟨hs, hrest⟩ := h
    unfold insertByConfidenceDesc
    by_cases hle : r.confidence ≤ s.confidence
    · rw [if_pos hle]
      rw [List.pairwise_cons]
      refine ⟨?_, ih hrest⟩
      intro f hf
      rcases List.mem_cons.mp ((insertByConfidenceDesc_perm r rest).mem_iff.mp hf) with
        rfl | hfr
      · exact hle
      · exact hs f hfr
    · rw [if_neg hle]
      rw [List.pairwise_cons]
      constructor
      · intro f hf
        rcases List.mem_cons.mp hf with rfl | hf'
        · exact le_of_lt (lt_of_not_le hle)
        · exact le_trans (hs f hf') (le_of_lt (lt_of_not_le hle))
      · rw [List.pairwise_cons]
        exact ⟨hs, hrest⟩

theorem pairwise_sortByConfidenceDesc (l : List InferredRelationship) :
    (sortByConfidenceDesc l).Pairwise (fun a b => b.confidence ≤ a.confidence) := by
  induction l with
  | nil => simp [sortByConfidenceDesc]
  | cons r rest ih =>
    unfold sortByConfidenceDesc
    exact pairwise_insertByConfidenceDesc r (sortByConfidenceDesc rest) ih

theorem dedupFold_inv :
    ∀ (rels seen : List InferredRelationship) (m : List (String × InferredRelationship)),
      (∀ r ∈ seen, GoodEndpoints r) → (∀ r ∈ rels, GoodEndpoints r) → MapInv seen m →
      MapInv (seen ++ rels) (rels.foldl dedupStep m) := by
  intro rels
  induction rels with
  | nil =>
    intro seen m _ _ hinv
    rw [List.append_nil]
    exact hinv
  | cons rel rest ih =>
    intro seen m hgseen hgrels hinv
    have hstep := dedupStep_inv hgseen (hgrels rel (List.mem_cons_self rel rest)) hinv
    have hgseen' : ∀ r ∈ seen ++ [rel], GoodEndpoints r := by
      intro r hr
      rcases List.mem_append.mp hr with hr' | hr'
      · exact hgseen r hr'
      · rw [List.mem_singleton.mp hr']
        exact hgrels rel (List.mem_cons_self rel rest)
    have := ih (seen ++ [rel]) (dedupStep m rel) hgseen'
      (fun r hr => hgrels r (List.mem_cons_of_mem rel hr)) hstep
    rw [List.append_assoc, List.singleton_append] at this
    exact this

end RelationshipInference

/-- C10 (amended): provided the endpoint table/column names contain neither `.` nor
`-` (true of SAP identifiers; the map keys are then unambiguous), the output of
`deduplicateRelationships` contains each unordered endpoint pair at most once, each
retained relationship has confidence at least that of every input relationship over
the same (or reversed) endpoints, and the output is sorted by non-increasing
confidence. -/
theorem RelationshipInference.deduplicateRelationships_correct
    (relationships : List InferredRelationship)
    (hgood : ∀ r ∈ relationships, RelationshipInference.GoodEndpoints r) :
    (RelationshipInference.deduplicateRelationships relationships).Pairwise
      (fun r s => ¬ RelationshipInference.samePair r s) ∧
    (∀ r ∈ RelationshipInference.deduplicateRelationships relationships,
      ∀ s ∈ relationships, RelationshipInference.samePair r s →
        s.confidence ≤ r.confidence) ∧
    (RelationshipInference.deduplicateRelationships relationships).Pairwise
      (fun a b => b.confidence ≤ a.confidence) := by
  have hinv0 : RelationshipInference.MapInv [] [] := by
    refine ⟨List.Pairwise.nil, ?_, ?_, ?_, ?_⟩ <;> simp
  have hinv := RelationshipInference.dedupFold_inv relationships [] []
    (by simp) hgood hinv0
  rw [List.nil_append] at hinv
  obtain ⟨hd, hkeys, huniq, hdom, -⟩ := hinv
  have hperm := RelationshipInference.sortByConfidenceDesc_perm
    ((relationships.foldl RelationshipInference.dedupStep []).map Prod.snd)
  refine ⟨?_, ?_, ?_⟩
  · -- each unordered pair occurs at most once
    have hpairm : (relationships.foldl RelationshipInference.dedupStep []).Pairwise
        (fun a b => ¬ RelationshipInference.samePair a.2 b.2) := by
      apply List.Pairwise.imp_of_mem _ hd
      intro a b ha hb hne hsp
      exact hne (congrArg Prod.fst (huniq a ha b hb hsp))
    have hvals : ((relationships.foldl RelationshipInference.dedupStep []).map
        Prod.snd).Pairwise (fun r s => ¬ RelationshipInference.samePair r s) :=
      List.pairwise_map.mpr hpairm
    exact ((hperm.pairwise_iff
      (fun h hsp => h (RelationshipInference.samePair_symm hsp))).mpr hvals)
  · intro r hr s hs hsp
    have hr' : r ∈ (relationships.foldl RelationshipInference.dedupStep []).map Prod.snd :=
      hperm.mem_iff.mp hr
    obtain ⟨e, he, rfl⟩ := List.mem_map.mp hr'
    exact hdom e he s hs hsp
  · exact RelationshipInference.pairwise_sortByConfidenceDesc _

/-- Witness for the amended C10 at a concrete input with a duplicated (reversed)
pair. -/
theorem RelationshipInference.deduplicateRelationships_correct_witness :
    (∀ r ∈ [(⟨"VBAK", "KUNNR", "KNA1", "KUNNR", "one_to_many", "left", 9, "column_name",
        none, []⟩ : InferredRelationship),
      ⟨"KNA1", "KUNNR", "VBAK", "KUNNR", "one_to_many", "left", 7, "column_name",
        none, []⟩], RelationshipInference.GoodEndpoints r) ∧
    ((RelationshipInference.deduplicateRelationships
        [⟨"VBAK", "KUNNR", "KNA1", "KUNNR", "one_to_many", "left", 9, "column_name",
          none, []⟩,
          ⟨"KNA1", "KUNNR", "VBAK", "KUNNR", "one_to_many", "left", 7, "column_name",
            none, []⟩]).Pairwise
      (fun r s => ¬ RelationshipInference.samePair r s) ∧
    (∀ r ∈ RelationshipInference.deduplicateRelationships
        [⟨"VBAK", "KUNNR", "KNA1", "KUNNR", "one_to_many", "left", 9, "column_name",
          none, []⟩,
          ⟨"KNA1", "KUNNR", "VBAK", "KUNNR", "one_to_many", "left", 7, "column_name",
            none, []⟩],
      ∀ s ∈ [(⟨"VBAK", "KUNNR", "KNA1", "KUNNR", "one_to_many", "left", 9, "column_name",
          none, []⟩ : InferredRelationship),
        ⟨"KNA1", "KUNNR", "VBAK", "KUNNR", "one_to_many", "left", 7, "column_name",
          none, []⟩], RelationshipInference.samePair r s →
        s.confidence ≤ r.confidence) ∧
    (RelationshipInference.deduplicateRelationships
        [⟨"VBAK", "KUNNR", "KNA1", "KUNNR", "one_to_many", "left", 9, "column_name",
          none, []⟩,
          ⟨"KNA1", "KUNNR", "VBAK", "KUNNR", "one_to_many", "left", 7, "column_name",
            none, []⟩]).Pairwise
      (fun a b => b.confidence ≤ a.confidence)) :=
  ⟨by decide,
    RelationshipInference.deduplicateRelationships_correct
      [⟨"VBAK", "KUNNR", "KNA1", "KUNNR", "one_to_many", "left", 9, "column_name",
        none, []⟩,
        ⟨"KNA1", "KUNNR", "VBAK", "KUNNR", "one_to_many", "left", 7, "column_name",
          none, []⟩] (by decide)⟩
